import Mathlib

/-!
Verification of the SpaceSaver scan-and-dedup / split-archive engine
(`src/spacesaver.py`) against its natural-language specification.

Modelling conventions (shallow embedding):
* Python strings are `List Char`; file contents are byte lists `List Nat`.
* Python `dict` is an association list with in-place update (`dget` / `dinsert`),
  matching CPython's insertion-order preserving semantics.
* `os.path.join(root, f)` is `root ++ '/' :: f` (separator modelled as '/').
* `hashlib.sha256(...).hexdigest()` is an oracle parameter
  `H : List Nat → List Char`; hexdigests are 64 hex characters, so the oracle
  is assumed to never return the empty string where that matters.
* `os.walk(folder)` is modelled by its yielded output: a list of
  `(directory path, file names)` pairs.  CPython's `os.walk` with the default
  `onerror=None` swallows the enumeration error for a missing root or a
  non-directory root and yields nothing, so an unenumerable root is the
  empty list.
* Python `f"{idx}_{name}"` is `decRepr idx ++ '_' :: name` where `decRepr`
  is the decimal representation.
-/

/-- Lookup in a Python-dict modelled as an association list
(`d.get(k)`): first (= only, under the insert discipline) binding wins. -/
def dget {α β : Type} [DecidableEq α] : List (α × β) → α → Option β
  | [], _ => none
  | e :: es, a => if e.1 = a then some e.2 else dget es a

/-- Python-dict store `d[k] = v`: update the existing binding in place
(keeping its position, as CPython dicts do), else append a new binding. -/
def dinsert {α β : Type} [DecidableEq α] : List (α × β) → α → β → List (α × β)
  | [], k, v => [(k, v)]
  | e :: es, k, v => if e.1 = k then (k, v) :: es else e :: dinsert es k v

theorem dget_dinsert_self {α β : Type} [DecidableEq α]
    (m : List (α × β)) (k : α) (v : β) : dget (dinsert m k v) k = some v := by
  induction m with
  | nil => simp [dget, dinsert]
  | cons e es ih =>
    by_cases h : e.1 = k
    · simp [dget, dinsert, h]
    · simp [dget, dinsert, h, ih]

theorem dget_dinsert_ne {α β : Type} [DecidableEq α]
    (m : List (α × β)) (k k' : α) (v : β) (h : k' ≠ k) :
    dget (dinsert m k v) k' = dget m k' := by
  induction m with
  | nil => simp [dget, dinsert, Ne.symm h]
  | cons e es ih =>
    by_cases he : e.1 = k
    · have hek' : e.1 ≠ k' := by rw [he]; exact Ne.symm h
      simp [dget, dinsert, he, Ne.symm h, hek']
    · by_cases he' : e.1 = k'
      · simp [dget, dinsert, he, he', h]
      · simp [dget, dinsert, he, he', ih]

theorem mem_dinsert {α β : Type} [DecidableEq α]
    (m : List (α × β)) (k : α) (v : β) :
    ∀ e ∈ dinsert m k v, e ∈ m ∨ e = (k, v) := by
  induction m with
  | nil => simp [dinsert]
  | cons e' es ih =>
    intro e he
    by_cases h : e'.1 = k
    · simp only [dinsert, if_pos h, List.mem_cons] at he
      rcases he with h1 | h2
      · right; exact h1
      · left; exact List.mem_cons_of_mem _ h2
    · simp only [dinsert, if_neg h, List.mem_cons] at he
      rcases he with h1 | h2
      · left; exact h1 ▸ List.mem_cons_self _ _
      · rcases ih e h2 with h3 | h3
        · left; exact List.mem_cons_of_mem _ h3
        · right; exact h3

/-- Fresh-key insert is an append. -/
theorem dinsert_fresh {α β : Type} [DecidableEq α]
    (m : List (α × β)) (k : α) (v : β) (h : dget m k = none) :
    dinsert m k v = m ++ [(k, v)] := by
  induction m with
  | nil => simp [dinsert]
  | cons e es ih =>
    by_cases he : e.1 = k
    · simp [dget, he] at h
    · simp only [dget, if_neg he] at h
      simp [dinsert, he, ih h]

/-- Decimal digit character, as produced by Python's `str` of a digit. -/
def decDigit : Nat → Char
  | 0 => '0' | 1 => '1' | 2 => '2' | 3 => '3' | 4 => '4'
  | 5 => '5' | 6 => '6' | 7 => '7' | 8 => '8' | _ => '9'

/-- Fuel-driven decimal representation (fuel keeps the recursion structural
so that concrete values compute by `decide`). -/
def decReprA : Nat → Nat → List Char
  | 0, _ => []
  | fuel + 1, n =>
    if n < 10 then [decDigit n] else decReprA fuel (n / 10) ++ [decDigit (n % 10)]

/-- Decimal representation of a natural number, as Python's `f"{n}"`. -/
def decRepr (n : Nat) : List Char := decReprA (n + 1) n

theorem decReprA_fuel : ∀ n f₁ f₂, n < f₁ → n < f₂ → decReprA f₁ n = decReprA f₂ n := by
  intro n
  induction n using Nat.strong_induction_on with
  | _ n ih =>
    intro f₁ f₂ h₁ h₂
    match f₁, f₂ with
    | g₁ + 1, g₂ + 1 =>
      by_cases h : n < 10
      · simp [decReprA, h]
      · have hdiv : n / 10 < n := Nat.div_lt_self (by omega) (by omega)
        simp only [decReprA, if_neg h]
        rw [ih (n / 10) hdiv g₁ g₂ (by omega) (by omega)]

/-- Characterizing equation for `decRepr`. -/
theorem decRepr_eq (n : Nat) :
    decRepr n = if n < 10 then [decDigit n] else decRepr (n / 10) ++ [decDigit (n % 10)] := by
  have h0 : decRepr n
      = if n < 10 then [decDigit n] else decReprA n (n / 10) ++ [decDigit (n % 10)] := rfl
  by_cases h : n < 10
  · rw [h0, if_pos h, if_pos h]
  · have hdiv : n / 10 < n := Nat.div_lt_self (by omega) (by omega)
    rw [h0, if_neg h, if_neg h]
    show decReprA n (n / 10) ++ _ = decReprA (n / 10 + 1) (n / 10) ++ _
    rw [decReprA_fuel (n / 10) n (n / 10 + 1) hdiv (by omega)]

/-- Digit-string valuation, inverse of `decRepr`. -/
def decVal (cs : List Char) : Nat :=
  cs.foldl (fun a c => a * 10 + (c.toNat - 48)) 0

theorem decDigit_isDigit (d : Nat) (h : d < 10) : (decDigit d).isDigit = true := by
  interval_cases d <;> decide

theorem decDigit_toNat (d : Nat) (h : d < 10) : (decDigit d).toNat = 48 + d := by
  interval_cases d <;> decide

theorem decVal_append_digit (cs : List Char) (c : Char) :
    decVal (cs ++ [c]) = decVal cs * 10 + (c.toNat - 48) := by
  simp [decVal, List.foldl_append]

theorem decVal_decRepr (n : Nat) : decVal (decRepr n) = n := by
  induction n using Nat.strong_induction_on with
  | _ n ih =>
    rw [decRepr_eq]
    by_cases h : n < 10
    · simp [decVal, h, decDigit_toNat n h]
    · have hdiv : n / 10 < n := Nat.div_lt_self (by omega) (by omega)
      have hmod : n % 10 < 10 := Nat.mod_lt _ (by omega)
      simp only [if_neg h, decVal_append_digit, ih (n / 10) hdiv,
        decDigit_toNat (n % 10) hmod]
      omega

theorem decRepr_inj {i j : Nat} (h : decRepr i = decRepr j) : i = j := by
  have := decVal_decRepr i
  rw [h, decVal_decRepr] at this
  omega

theorem decRepr_ne_nil (n : Nat) : decRepr n ≠ [] := by
  rw [decRepr_eq]
  by_cases h : n < 10 <;> simp [h]

theorem decRepr_isDigit (n : Nat) : ∀ c ∈ decRepr n, c.isDigit = true := by
  induction n using Nat.strong_induction_on with
  | _ n ih =>
    rw [decRepr_eq]
    by_cases h : n < 10
    · simp only [if_pos h, List.mem_singleton]
      intro c hc; subst hc; exact decDigit_isDigit n h
    · have hdiv : n / 10 < n := Nat.div_lt_self (by omega) (by omega)
      have hmod : n % 10 < 10 := Nat.mod_lt _ (by omega)
      simp only [if_neg h, List.mem_append, List.mem_singleton]
      intro c hc
      rcases hc with hc | hc
      · exact ih (n / 10) hdiv c hc
      · subst hc; exact decDigit_isDigit _ hmod

/-- A list of digit characters followed by `'_'` splits unambiguously. -/
theorem digits_underscore_inj :
    ∀ (xs ys as bs : List Char), (∀ c ∈ xs, c.isDigit = true) →
      (∀ c ∈ ys, c.isDigit = true) →
      xs ++ '_' :: as = ys ++ '_' :: bs → xs = ys ∧ as = bs := by
  intro xs
  induction xs with
  | nil =>
    intro ys as bs _ hys h
    cases ys with
    | nil => simpa using h
    | cons y ys' =>
      simp only [List.nil_append, List.cons_append, List.cons.injEq] at h
      have : y.isDigit = true := hys y (List.mem_cons_self _ _)
      rw [← h.1] at this
      simp at this
  | cons x xs' ih =>
    intro ys as bs hxs hys h
    cases ys with
    | nil =>
      simp only [List.cons_append, List.nil_append, List.cons.injEq] at h
      have : x.isDigit = true := hxs x (List.mem_cons_self _ _)
      rw [h.1] at this
      simp at this
    | cons y ys' =>
      simp only [List.cons_append, List.cons.injEq] at h
      have hx : ∀ c ∈ xs', c.isDigit = true := fun c hc => hxs c (List.mem_cons_of_mem _ hc)
      have hy : ∀ c ∈ ys', c.isDigit = true := fun c hc => hys c (List.mem_cons_of_mem _ hc)
      obtain ⟨h1, h2⟩ := ih ys' as bs hx hy h.2
      exact ⟨by rw [h.1, h1], h2⟩

/-- Two collision-renamed entry names `f"{i}_{n}"` coincide only when both
the ordinal and the base name coincide. -/
theorem rename_inj {i j : Nat} {xs ys : List Char}
    (h : decRepr i ++ '_' :: xs = decRepr j ++ '_' :: ys) : i = j ∧ xs = ys := by
  obtain ⟨h1, h2⟩ := digits_underscore_inj (decRepr i) (decRepr j) xs ys
    (decRepr_isDigit i) (decRepr_isDigit j) h
  exact ⟨decRepr_inj h1, h2⟩

/-- `headOk n` holds when `n` does not begin with a decimal digit (so it can
never be confused with a collision-renamed `f"{idx}_{name}"` entry). -/
def headOk (n : List Char) : Bool :=
  match n with
  | [] => true
  | c :: _ => !c.isDigit

theorem rename_head_digit (i : Nat) (xs : List Char) :
    headOk (decRepr i ++ '_' :: xs) = false := by
  rcases h : decRepr i with _ | ⟨c, cs⟩
  · exact absurd h (decRepr_ne_nil i)
  · have : c.isDigit = true := decRepr_isDigit i c (by rw [h]; exact List.mem_cons_self _ _)
    simp [headOk, this]

/-! ## Paths, names and the manifest encoding -/

/-- `os.path.basename`: the segment after the last path separator
(separator modelled as '/'). -/
def basenameOf (p : List Char) : List Char :=
  p.foldl (fun acc c => if c = '/' then [] else acc ++ [c]) []

/-- `os.path.splitext(path)[1].lower()`: the (lowercased) suffix of the base
name starting at its last dot, empty when the base name has no dot or only
leading dots (CPython's `splitext` rule). -/
def extOf (p : List Char) : List Char :=
  let b := basenameOf p
  if b.contains '.' then
    let after := (b.reverse.takeWhile (fun c => c ≠ '.')).length
    let cut := b.length - after - 1
    if (b.take cut).any (fun c => c ≠ '.') then
      (b.drop cut).map Char.toLower
    else []
  else []

/-- The reserved manifest entry name, `"manifest.json"`. -/
def mjN : List Char := "manifest.json".toList

/-- JSON string-character escaping used by `json.dumps` (quote and
backslash; other characters appearing in this program's names and paths
are emitted verbatim). -/
def jsonEscape (c : Char) : List Char :=
  if c = '\"' then ['\\', '\"']
  else if c = '\\' then ['\\', '\\']
  else [c]

/-- A JSON string literal. -/
def jsonStr (s : List Char) : List Char :=
  '\"' :: (s.flatMap jsonEscape) ++ ['\"']

/-- `json.dumps(manifest, indent=2)`: the pretty-printed flat object
mapping entry names to original paths (insertion order preserved). -/
def jsonDump (m : List (List Char × List Char)) : List Char :=
  match m with
  | [] => [Char.ofNat 123, Char.ofNat 125]
  | _ =>
    [Char.ofNat 123, '\n'] ++
      (List.intercalate [',', '\n']
        (m.map (fun e => [' ', ' '] ++ jsonStr e.1 ++ [':', ' '] ++ jsonStr e.2))) ++
      ['\n', Char.ofNat 125]

/-- The manifest document as stored bytes (ASCII). -/
def encodeManifest (m : List (List Char × List Char)) : List Nat :=
  (jsonDump m).map Char.toNat

/-! ## ContentHasher and DuplicateIndex (FileScanner.run, lines 82–92)

`H` is the oracle for `hashlib.sha256(...).hexdigest()`.  Line 82 computes
the digest only for files of positive size and uses the *empty string* as
the digest of a zero-byte file. -/

/-- Line 82: `h = hashlib.sha256(open(path,'rb').read()).hexdigest() if size > 0 else ''`.
The scanner reads the whole file, so `size` is the length of the content read. -/
def fileDigest (H : List Nat → List Char) (content : List Nat) : List Char :=
  if content.length > 0 then H content else []

/-- Lines 83–85: one `classify` interaction with the duplicate index
(`found_hashes`): `dup = found_hashes.get(h, '')`; `if not dup:
found_hashes[h] = path`.  Returns the emitted `duplicateOf` value and the
updated index. -/
def classify1 (index : List (List Char × List Char)) (h p : List Char) :
    List Char × List (List Char × List Char) :=
  let dup := (dget index h).getD []
  (dup, if dup = [] then dinsert index h p else index)

/-- The sequence of classify calls one scan performs, in walk order:
for each `(digest, path)` pair the emitted `duplicateOf`, threading the
per-scan `found_hashes` index. -/
def classifyList (index : List (List Char × List Char)) :
    List (List Char × List Char) → List (List Char × List Char) × List (List Char)
  | [] => (index, [])
  | c :: cs =>
    let r1 := classify1 index c.1 c.2
    let r := classifyList r1.2 cs
    (r.1, r1.1 :: r.2)

/-- First path recorded for a digest, in call order. -/
def firstWith (d : List Char) : List (List Char × List Char) → Option (List Char)
  | [] => none
  | c :: cs => if c.1 = d then some c.2 else firstWith d cs

theorem firstWith_cons (d : List Char) (c : List Char × List Char)
    (cs : List (List Char × List Char)) :
    firstWith d (c :: cs) = if c.1 = d then some c.2 else firstWith d cs := rfl

/-- Behaviour of the per-scan duplicate index over any call sequence with
non-empty paths: the final index maps a digest to the first path that
produced it (prior bindings act as an override from the left), and the
value emitted at call `i` is the binding that the first `i` calls
established. -/
theorem classifyList_spec :
    ∀ (cs : List (List Char × List Char)) (index : List (List Char × List Char)),
      (∀ e ∈ index, e.2 ≠ []) → (∀ c ∈ cs, c.2 ≠ []) →
      (∀ d, dget (classifyList index cs).1 d = (dget index d).or (firstWith d cs)) ∧
      (∀ i d p, cs[i]? = some (d, p) →
        (classifyList index cs).2[i]? =
          some (((dget index d).or (firstWith d (cs.take i))).getD [])) := by
  intro cs
  induction cs with
  | nil =>
    intro index hidx hcs
    constructor
    · intro d; simp [classifyList, firstWith]
    · intro i d p h; simp at h
  | cons c cs ih =>
    intro index hidx hcs
    have hp : c.2 ≠ [] := hcs c (List.mem_cons_self _ _)
    have hcs' : ∀ x ∈ cs, x.2 ≠ [] := fun x hx => hcs x (List.mem_cons_of_mem _ hx)
    -- the one-step update of the index
    by_cases hd : dget index c.1 = none
    · -- fresh digest: dup = [], the index records c
      have hdup : (dget index c.1).getD [] = [] := by rw [hd]; rfl
      have hstep : classifyList index (c :: cs)
          = ((classifyList (dinsert index c.1 c.2) cs).1,
             [] :: (classifyList (dinsert index c.1 c.2) cs).2) := by
        simp [classifyList, classify1, hdup]
      have hidx' : ∀ e ∈ dinsert index c.1 c.2, e.2 ≠ [] := by
        intro e he
        rcases mem_dinsert index c.1 c.2 e he with h1 | h1
        · exact hidx e h1
        · rw [h1]; exact hp
      obtain ⟨ihA, ihB⟩ := ih (dinsert index c.1 c.2) hidx' hcs'
      constructor
      · intro d
        rw [hstep]
        simp only
        rw [ihA d]
        by_cases hdc : d = c.1
        · subst hdc
          rw [dget_dinsert_self, hd, firstWith_cons, if_pos rfl]
          rfl
        · rw [dget_dinsert_ne index c.1 d c.2 hdc, firstWith_cons,
            if_neg (fun h => hdc h.symm)]
      · intro i d p hget
        match i with
        | 0 =>
          simp only [List.getElem?_cons_zero, Option.some.injEq] at hget
          rw [hstep]
          simp only [List.getElem?_cons_zero, Option.some.injEq, List.take_zero]
          subst hget
          simp [firstWith, hd]
        | i + 1 =>
          simp only [List.getElem?_cons_succ] at hget
          rw [hstep]
          simp only [List.getElem?_cons_succ, List.take_succ_cons]
          rw [ihB i d p hget]
          by_cases hdc : d = c.1
          · subst hdc
            rw [dget_dinsert_self, hd, firstWith_cons, if_pos rfl]
            rfl
          · rw [dget_dinsert_ne index c.1 d c.2 hdc, firstWith_cons,
              if_neg (fun h => hdc h.symm)]
    · -- previously recorded digest: dup is the recorded (non-empty) path
      obtain ⟨q, hq⟩ := Option.ne_none_iff_exists'.mp hd
      have hqne : q ≠ [] := by
        -- the recorded value is a path stored in the index
        have : ∀ (m : List (List Char × List Char)) a b, dget m a = some b →
            ∃ e ∈ m, e.2 = b := by
          intro m
          induction m with
          | nil => intro a b h; simp [dget] at h
          | cons e es ihm =>
            intro a b h
            by_cases he : e.1 = a
            · simp only [dget, if_pos he, Option.some.injEq] at h
              exact ⟨e, List.mem_cons_self _ _, h⟩
            · simp only [dget, if_neg he] at h
              obtain ⟨x, hx1, hx2⟩ := ihm a b h
              exact ⟨x, List.mem_cons_of_mem _ hx1, hx2⟩
        obtain ⟨e, he1, he2⟩ := this index c.1 q hq
        rw [← he2]
        exact hidx e he1
      have hdup : (dget index c.1).getD [] = q := by rw [hq]; rfl
      have hstep : classifyList index (c :: cs)
          = ((classifyList index cs).1, q :: (classifyList index cs).2) := by
        simp [classifyList, classify1, hdup, hqne]
      obtain ⟨ihA, ihB⟩ := ih index hidx hcs'
      constructor
      · intro d
        rw [hstep]
        simp only
        rw [ihA d]
        by_cases hdc : d = c.1
        · subst hdc
          rw [hq, firstWith_cons]
          rfl
        · rw [firstWith_cons, if_neg (fun h => hdc h.symm)]
      · intro i d p hget
        match i with
        | 0 =>
          simp only [List.getElem?_cons_zero, Option.some.injEq] at hget
          rw [hstep]
          simp only [List.getElem?_cons_zero, Option.some.injEq, List.take_zero]
          subst hget
          simp [firstWith, hq]
        | i + 1 =>
          simp only [List.getElem?_cons_succ] at hget
          rw [hstep]
          simp only [List.getElem?_cons_succ, List.take_succ_cons]
          rw [ihB i d p hget]
          by_cases hdc : d = c.1
          · subst hdc
            rw [hq, firstWith_cons, if_pos rfl]
            rfl
          · rw [firstWith_cons, if_neg (fun h => hdc h.symm)]

/-- C1: For every scan, the first classify call with a previously-unseen
digest returns an empty `duplicateOf` and records the mapping
digest → path; every subsequent call with the same digest returns exactly
the path recorded by that first call, and no call ever overwrites an
existing digest → path entry in the index.  Formalized over the sequence
of `(digest, path)` classify interactions a scan performs (lines 83–85):
the final `found_hashes` maps every digest to the path of its *first*
occurrence (so entries are never overwritten), and the `duplicateOf`
emitted at call `i` is empty exactly when the digest is unseen among the
first `i` calls and otherwise the first recorded path.  The hypothesis
that paths are non-empty holds for every scan, since scanned paths are
`os.path.join` results. -/
theorem c1_duplicate_index_first_seen (calls : List (List Char × List Char))
    (h : ∀ c ∈ calls, c.2 ≠ []) :
    (∀ d, dget (classifyList [] calls).1 d = firstWith d calls) ∧
    (∀ i d p, calls[i]? = some (d, p) →
      (classifyList [] calls).2[i]? = some ((firstWith d (calls.take i)).getD [])) := by
  obtain ⟨hA, hB⟩ := classifyList_spec calls [] (by simp) h
  constructor
  · intro d; rw [hA d]; rfl
  · intro i d p hp; rw [hB i d p hp]; rfl

theorem c1_witness :
    (∀ c ∈ [(['d'], ['p']), (['d'], ['q'])], c.2 ≠ ([] : List Char)) ∧
      dget (classifyList [] [(['d'], ['p']), (['d'], ['q'])]).1 ['d']
        = firstWith ['d'] [(['d'], ['p']), (['d'], ['q'])] :=
  ⟨by decide,
   (c1_duplicate_index_first_seen [(['d'], ['p']), (['d'], ['q'])] (by decide)).1 ['d']⟩

/-- The SHA-256 hexdigest of the empty input (what `hashlib.sha256(b'').hexdigest()`
returns): a 64-character, non-empty hex string. -/
def sha256EmptyHex : List Char :=
  "e3b0c44298fc1c149afbf4c8996fb92427ae41e4649b934ca495991b7852b855".toList

/-- C8 counterexample: line 82 assigns a zero-byte file the digest `''`
(the empty string), not the hash of the empty input: with any hash oracle
whose hexdigest of the empty input is the (non-empty, 64-character)
SHA-256 value, the digest produced for a zero-byte file differs from the
hash of the empty input and is not a fixed-length 256-bit digest. -/
theorem c8_counterexample :
    fileDigest (fun _ => sha256EmptyHex) [] = [] ∧
      ([] : List Char) ≠ sha256EmptyHex ∧ sha256EmptyHex.length = 64 := by
  refine ⟨rfl, by decide, by decide⟩

/-- C8 amended: a zero-byte file yields the *empty-string* digest — a
sentinel shared by all empty files (so all empty files are still reported
as mutual duplicates) — not the SHA-256 of the empty input. -/
theorem c8_amended_zero_byte_digest (H : List Nat → List Char)
    (c₁ c₂ : List Nat) (h₁ : c₁.length = 0) (h₂ : c₂.length = 0) :
    fileDigest H c₁ = [] ∧ fileDigest H c₁ = fileDigest H c₂ := by
  unfold fileDigest
  rw [h₁, h₂]
  simp

theorem c8_witness :
    ([] : List Nat).length = 0 ∧
      (fileDigest (fun _ => sha256EmptyHex) [] = [] ∧
        fileDigest (fun _ => sha256EmptyHex) [] = fileDigest (fun _ => sha256EmptyHex) []) :=
  ⟨rfl, c8_amended_zero_byte_digest (fun _ => sha256EmptyHex) [] [] rfl rfl⟩

/-! ## FileScanner.run (lines 66–96)

The scan walks the root, prunes excluded directories by string prefix,
builds the flat file list, then iterates it emitting `file_found`,
`progress` and finally `finished`.  `stat` is the oracle combining
`os.path.getsize` and `open(path,'rb').read()` (`none` = per-file I/O
error, swallowed by `except: pass`). -/

/-- One emitted `file_found` record (name, size, path, 'No', duplicateOf). -/
structure FileRec where
  name : List Char
  size : Nat
  path : List Char
  archived : List Char
  dup : List Char
  deriving DecidableEq

/-- The observable output of one scan: emitted records, emitted progress
percentages, and the final `found_hashes` index. -/
structure ScanOut where
  records : List FileRec
  progress : List Nat
  index : List (List Char × List Char)
  deriving DecidableEq

/-- Lines 67–72: build `file_list`, skipping every walked directory whose
path starts with one of the excluded prefixes, and joining the remaining
directories with their file names. -/
def fileListOf (excluded : List (List Char))
    (walked : List (List Char × List (List Char))) : List (List Char) :=
  (walked.filter (fun rd => !(excluded.any (fun ex => ex.isPrefixOf rd.1)))).flatMap
    (fun rd => rd.2.map (fun f => rd.1 ++ '/' :: f))

/-- Lines 75–95: the per-file loop.  For each path: stat it (errors are
swallowed), apply the extension filter, hash, classify against
`found_hashes`, emit the record; after every file emit
`int((idx+1)/total*100)` as progress. -/
def scanGo (H : List Nat → List Char) (exts : List (List Char))
    (stat : List Char → Option (List Nat)) (total : Nat) :
    Nat → ScanOut → List (List Char) → ScanOut
  | _, st, [] => st
  | idx, st, p :: ps =>
    let st1 : ScanOut :=
      match stat p with
      | none => st
      | some content =>
        let size := content.length
        let ext := extOf p
        if exts = [] ∨ ext ∈ exts then
          let h := fileDigest H content
          let r := classify1 st.index h p
          { st with
              records := st.records ++ [⟨basenameOf p, size, p, "No".toList, r.1⟩],
              index := r.2 }
        else st
    scanGo H exts stat total (idx + 1)
      { st1 with progress := st1.progress ++ [(idx + 1) * 100 / total] } ps

/-- `FileScanner.run`: the whole scan.  The `Bool` is the single terminal
`finished` signal. -/
def scanRun (excluded : List (List Char)) (exts : List (List Char))
    (H : List Nat → List Char) (stat : List Char → Option (List Nat))
    (walked : List (List Char × List (List Char))) : ScanOut × Bool :=
  let fl := fileListOf excluded walked
  (scanGo H exts stat fl.length 0 ⟨[], [], []⟩ fl, true)

/-- Lines 20–26: the excluded-roots configuration, from the environment;
`APPDATA` and `LOCALAPPDATA` fall back to the empty string. -/
def EXCLUDED_DIRS (env : String → Option (List Char)) : List (List Char) :=
  [(env "SystemRoot").getD "C:/Windows".toList,
   (env "ProgramFiles").getD "C:/Program Files".toList,
   (env "ProgramFiles(x86)").getD "C:/Program Files (x86)".toList,
   (env "APPDATA").getD [],
   (env "LOCALAPPDATA").getD []]

theorem fileListOf_ne_nil (excluded : List (List Char))
    (walked : List (List Char × List (List Char))) :
    ∀ p ∈ fileListOf excluded walked, p ≠ [] := by
  intro p hp
  rw [fileListOf, List.mem_flatMap] at hp
  obtain ⟨rd, _, hmem⟩ := hp
  rw [List.mem_map] at hmem
  obtain ⟨f, _, heq⟩ := hmem
  rw [← heq]
  cases rd.1 <;> simp

/-- The per-file action of the scan loop body (lines 78–92), without the
progress emission: stat the file (errors swallowed), apply the extension
filter, hash, classify, emit the record. -/
def scanStep1 (H : List Nat → List Char) (exts : List (List Char))
    (stat : List Char → Option (List Nat)) (st : ScanOut) (p : List Char) : ScanOut :=
  match stat p with
  | none => st
  | some content =>
    let size := content.length
    let ext := extOf p
    if exts = [] ∨ ext ∈ exts then
      let h := fileDigest H content
      let r := classify1 st.index h p
      { st with
          records := st.records ++ [⟨basenameOf p, size, p, "No".toList, r.1⟩],
          index := r.2 }
    else st

theorem scanGo_eq_step (H : List Nat → List Char) (exts : List (List Char))
    (stat : List Char → Option (List Nat)) (total idx : Nat) (st : ScanOut)
    (p : List Char) (ps : List (List Char)) :
    scanGo H exts stat total idx st (p :: ps) =
      scanGo H exts stat total (idx + 1)
        { scanStep1 H exts stat st p with
            progress := (scanStep1 H exts stat st p).progress ++ [(idx + 1) * 100 / total] }
        ps := rfl

/-- Invariant relating the empty-file records emitted so far and the
`found_hashes` entry for the shared empty digest `''`. -/
def empOkAux : List FileRec → List (List Char × List Char) → Prop
  | [], index => dget index [] = none
  | e :: es, index =>
    e.dup = [] ∧ e.path ≠ [] ∧ (∀ r ∈ es, r.dup = e.path) ∧ dget index [] = some e.path

def EmpOk (recs : List FileRec) (index : List (List Char × List Char)) : Prop :=
  empOkAux (recs.filter (fun r => decide (r.size = 0))) index

theorem scanStep1_EmpOk (H : List Nat → List Char) (exts : List (List Char))
    (stat : List Char → Option (List Nat)) (hH : ∀ b, H b ≠ [])
    (st : ScanOut) (p : List Char) (hp : p ≠ [])
    (hok : EmpOk st.records st.index) :
    EmpOk (scanStep1 H exts stat st p).records (scanStep1 H exts stat st p).index := by
  unfold scanStep1
  cases hstat : stat p with
  | none => exact hok
  | some content =>
    by_cases hf : exts = [] ∨ extOf p ∈ exts
    · simp only [if_pos hf]
      by_cases hsz : content.length > 0
      · -- non-empty file: the appended record is filtered out, and the
        -- index is touched only at the non-empty key `H content`
        have hd : fileDigest H content = H content := by
          simp [fileDigest, hsz]
        have hpred :
            (decide ((⟨basenameOf p, content.length, p, "No".toList,
              (classify1 st.index (fileDigest H content) p).1⟩ : FileRec).size = 0)) = false :=
          decide_eq_false (show ¬ content.length = 0 by omega)
        unfold EmpOk at hok ⊢
        simp only [List.filter_append, List.filter_cons, hpred, List.filter_nil,
          Bool.false_eq_true, if_false, List.append_nil]
        have hne : ([] : List Char) ≠ H content := Ne.symm (hH content)
        have hidx : dget (classify1 st.index (fileDigest H content) p).2 [] =
            dget st.index [] := by
          rw [hd]
          unfold classify1
          by_cases hdup : (dget st.index (H content)).getD [] = []
          · simp only [hdup, if_pos rfl]
            exact dget_dinsert_ne st.index (H content) [] p hne
          · simp only [if_neg hdup]
        cases hflt : st.records.filter (fun r => decide (r.size = 0)) with
        | nil =>
          rw [hflt] at hok
          simp only [empOkAux] at hok ⊢
          rw [hidx]; exact hok
        | cons e es =>
          rw [hflt] at hok
          simp only [empOkAux] at hok ⊢
          rw [hidx]; exact hok
      · -- zero-byte file: digest is the empty string
        have hc : content.length = 0 := by omega
        have hd : fileDigest H content = [] := by simp [fileDigest, hc]
        have hpred :
            (decide ((⟨basenameOf p, content.length, p, "No".toList,
              (classify1 st.index (fileDigest H content) p).1⟩ : FileRec).size = 0)) = true :=
          decide_eq_true (show content.length = 0 from hc)
        unfold EmpOk at hok ⊢
        simp only [List.filter_append, List.filter_cons, hpred, if_true, List.filter_nil]
        cases hflt : st.records.filter (fun r => decide (r.size = 0)) with
        | nil =>
          rw [hflt] at hok
          simp only [empOkAux] at hok
          -- first empty file: dup = [], the index records '' → p
          have hdup : (classify1 st.index (fileDigest H content) p).1 = [] := by
            unfold classify1
            simp [hd, hok]
          have hidx : (classify1 st.index (fileDigest H content) p).2 =
              dinsert st.index [] p := by
            unfold classify1
            simp [hd, hok]
          simp only [List.nil_append, empOkAux, hidx, hdup]
          exact ⟨by trivial, hp, by simp, dget_dinsert_self st.index [] p⟩
        | cons e es =>
          rw [hflt] at hok
          simp only [empOkAux] at hok
          obtain ⟨h1, h2, h3, h4⟩ := hok
          -- later empty file: dup = first empty path, index untouched
          have hdup : (classify1 st.index (fileDigest H content) p).1 = e.path := by
            unfold classify1
            simp [hd, h4]
          have hidx : (classify1 st.index (fileDigest H content) p).2 = st.index := by
            unfold classify1
            simp [hd, h4, h2]
          simp only [List.cons_append, empOkAux, hidx, hdup]
          refine ⟨h1, h2, ?_, h4⟩
          intro r hr
          rw [List.mem_append] at hr
          rcases hr with hr | hr
          · exact h3 r hr
          · rw [List.mem_singleton] at hr
            rw [hr]
    · simp only [if_neg hf]
      exact hok

theorem scanGo_EmpOk (H : List Nat → List Char) (exts : List (List Char))
    (stat : List Char → Option (List Nat)) (total : Nat) (hH : ∀ b, H b ≠ []) :
    ∀ (ps : List (List Char)) (idx : Nat) (st : ScanOut),
      (∀ p ∈ ps, p ≠ []) → EmpOk st.records st.index →
      EmpOk (scanGo H exts stat total idx st ps).records
        (scanGo H exts stat total idx st ps).index := by
  intro ps
  induction ps with
  | nil => intro idx st _ hok; exact hok
  | cons p ps ih =>
    intro idx st hps hok
    rw [scanGo_eq_step]
    apply ih
    · exact fun q hq => hps q (List.mem_cons_of_mem _ hq)
    · exact scanStep1_EmpOk H exts stat hH st p (hps p (List.mem_cons_self _ _)) hok

/-- C9: in any single scan, among the emitted records of zero-byte files
(in walk order) the first has empty `duplicateOf` and every later one has
`duplicateOf` equal to the first one's path.  The hypothesis on the hash
oracle states that hexdigests are never the empty string (they are 64 hex
characters), so only zero-byte files produce the shared empty digest. -/
theorem c9_empty_files_duplicate_of_first (excluded : List (List Char))
    (exts : List (List Char)) (H : List Nat → List Char)
    (stat : List Char → Option (List Nat))
    (walked : List (List Char × List (List Char))) (hH : ∀ b, H b ≠ []) :
    ∀ e es,
      (scanRun excluded exts H stat walked).1.records.filter
          (fun r => decide (r.size = 0)) = e :: es →
      e.dup = [] ∧ ∀ r ∈ es, r.dup = e.path := by
  intro e es heq
  have h0 : EmpOk ([] : List FileRec) ([] : List (List Char × List Char)) := by
    simp [EmpOk, empOkAux, dget]
  have hinv := scanGo_EmpOk H exts stat (fileListOf excluded walked).length hH
    (fileListOf excluded walked) 0 ⟨[], [], []⟩ (fileListOf_ne_nil _ _) h0
  have hrw : (scanRun excluded exts H stat walked).1 =
      scanGo H exts stat (fileListOf excluded walked).length 0 ⟨[], [], []⟩
        (fileListOf excluded walked) := rfl
  rw [hrw] at heq
  unfold EmpOk at hinv
  rw [heq] at hinv
  simp only [empOkAux] at hinv
  exact ⟨hinv.1, hinv.2.2.1⟩

theorem c9_witness :
    (∀ b : List Nat, (fun _ => ['h'] : List Nat → List Char) b ≠ []) ∧
      ((⟨['a'], 0, ['d', '/', 'a'], "No".toList, []⟩ : FileRec).dup = [] ∧
        ∀ r ∈ [(⟨['b'], 0, ['d', '/', 'b'], "No".toList, ['d', '/', 'a']⟩ : FileRec)],
          r.dup = ['d', '/', 'a']) :=
  ⟨fun _ => List.cons_ne_nil _ _,
   c9_empty_files_duplicate_of_first [] [] (fun _ => ['h']) (fun _ => some [])
     [(['d'], [['a'], ['b']])] (fun _ => List.cons_ne_nil _ _) _ _ (by decide)⟩

/-- C10: when the configured excluded-roots list contains the empty string
— which happens whenever `APPDATA` or `LOCALAPPDATA` is unset, since the
configured fallback is `''` — the prefix test `root.startswith(ex)`
matches every walked directory, so a scan of any root builds an empty
file list and emits no record and no progress event, only the single
completion signal. -/
theorem c10_empty_excluded_prefix_scans_nothing (env : String → Option (List Char))
    (h : env "APPDATA" = none ∨ env "LOCALAPPDATA" = none)
    (exts : List (List Char)) (H : List Nat → List Char)
    (stat : List Char → Option (List Nat))
    (walked : List (List Char × List (List Char))) :
    scanRun (EXCLUDED_DIRS env) exts H stat walked = (⟨[], [], []⟩, true) := by
  have hmem : ([] : List Char) ∈ EXCLUDED_DIRS env := by
    rcases h with h | h <;> simp [EXCLUDED_DIRS, h]
  have hfilter : walked.filter
      (fun rd => !((EXCLUDED_DIRS env).any (fun ex => ex.isPrefixOf rd.1))) = [] := by
    rw [List.filter_eq_nil_iff]
    intro rd _
    have hany : (EXCLUDED_DIRS env).any (fun ex => ex.isPrefixOf rd.1) = true :=
      List.any_eq_true.mpr ⟨[], hmem, by cases rd.1 <;> rfl⟩
    simp [hany]
  have hfl : fileListOf (EXCLUDED_DIRS env) walked = [] := by
    rw [fileListOf, hfilter]
    rfl
  rw [scanRun, hfl]
  rfl

theorem c10_witness :
    ((fun _ => none : String → Option (List Char)) "APPDATA" = none ∨
      (fun _ => none : String → Option (List Char)) "LOCALAPPDATA" = none) ∧
      scanRun (EXCLUDED_DIRS (fun _ => none)) [] (fun _ => ['h'])
        (fun _ => some [0]) [(['r'], [['a']])] = (⟨[], [], []⟩, true) :=
  ⟨Or.inl rfl,
   c10_empty_excluded_prefix_scans_nothing (fun _ => none) (Or.inl rfl) [] _ _ _⟩

/-- C6 counterexample: the code raises no `ScanStartError` — no such path
exists in `FileScanner.run`.  `os.walk` with its default `onerror=None`
yields nothing for a root that does not exist or is not a directory, so
the walked output is empty; the scan then runs to normal completion,
emitting the terminal `finished` signal (the `true` component) with zero
records and zero progress events, contradicting the claim that the scan
"fails immediately" and "does not start". -/
theorem c6_counterexample :
    (scanRun [] [] (fun _ => ['h']) (fun _ => some [0]) []).2 = true ∧
      (scanRun [] [] (fun _ => ['h']) (fun _ => some [0]) []).1.records = [] ∧
      (scanRun [] [] (fun _ => ['h']) (fun _ => some [0]) []).1.progress = [] :=
  ⟨rfl, rfl, rfl⟩

/-- C6 amended: a root that cannot be enumerated (missing or not a
directory) produces an empty enumeration; the scan completes normally —
no error is reported, no record and no progress event is emitted, and the
single completion signal is still emitted. -/
theorem c6_amended_bad_root_completes_normally (excluded : List (List Char))
    (exts : List (List Char)) (H : List Nat → List Char)
    (stat : List Char → Option (List Nat)) :
    scanRun excluded exts H stat [] = (⟨[], [], []⟩, true) := rfl

/-! ## CleanupApp.archive_selected — Single File mode (lines 334–346)

A selected file is a path plus the bytes `zf.write` copies; archiving
resolves an entry name per member (`arc = name if name not in seen else
f"{idx}_{name}"`), writes the bytes, records the manifest entry and
deletes the source.  `ok` is the copy oracle: `ok f = false` models
`zf.write(f, arc)` raising, which (there being no per-member handler)
aborts the loop; the `with` block still closes the container, so entries
written so far persist but `manifest.json` (line 345) is never written. -/

structure AFile where
  path : List Char
  content : List Nat
  deriving DecidableEq

/-- The resolved entry names of lines 341–343, in member order, starting
from a given `seen` set and enumeration index. -/
def arcsFrom (seen : List (List Char)) (idx : Nat) : List AFile → List (List Char)
  | [] => []
  | f :: fs =>
    let name := basenameOf f.path
    let arc := if name ∈ seen then decRepr idx ++ '_' :: name else name
    arc :: arcsFrom (arc :: seen) (idx + 1) fs

/-- Archive-loop state: container entries written, manifest, `seen`,
deleted source paths, and whether a member copy raised. -/
structure SAState where
  entries : List (List Char × List Nat)
  manifest : List (List Char × List Char)
  seen : List (List Char)
  deleted : List (List Char)
  failed : Bool
  deriving DecidableEq

/-- Lines 340–344: the per-member loop of Single File mode. -/
def saGo (ok : AFile → Bool) : List (List Char) → Nat → List (List Char × List Nat) →
    List (List Char × List Char) → List (List Char) → List AFile → SAState
  | seen, _, entries, manifest, deleted, [] => ⟨entries, manifest, seen, deleted, false⟩
  | seen, idx, entries, manifest, deleted, f :: fs =>
    let name := basenameOf f.path
    let arc := if name ∈ seen then decRepr idx ++ '_' :: name else name
    if ok f then
      saGo ok (arc :: seen) (idx + 1) (entries ++ [(arc, f.content)])
        (dinsert manifest arc f.path) (deleted ++ [f.path]) fs
    else ⟨entries, manifest, arc :: seen, deleted, true⟩

def saRun (ok : AFile → Bool) (files : List AFile) : SAState :=
  saGo ok [] 0 [] [] [] files

/-- The container contents after the `with` block: the written entries,
plus the `manifest.json` entry (line 345) only when no member raised. -/
def saContainer (ok : AFile → Bool) (files : List AFile) : List (List Char × List Nat) :=
  let st := saRun ok files
  if st.failed then st.entries else st.entries ++ [(mjN, encodeManifest st.manifest)]

/-- `zipfile.extractall` semantics into an (initially empty) destination:
entries are extracted in order, a later entry overwriting an earlier one
of the same name; the final contents of file `n` are those of the *last*
entry named `n`. -/
def extractLast : List (List Char × List Nat) → List Char → Option (List Nat)
  | [], _ => none
  | e :: es, n =>
    match extractLast es n with
    | some c => some c
    | none => if e.1 = n then some e.2 else none

/-- Total number of bytes the restore leaves in the files the manifest
names. -/
def restoredTotal (manifest : List (List Char × List Char))
    (cont : List (List Char × List Nat)) : Nat :=
  (manifest.map (fun e => ((extractLast cont e.1).getD []).length)).sum

/-! ### Entry-name collision resolution (C3) -/

/-- Invariant over `seen`: every already-used entry name either does not
start with a digit (it was used as a plain base name) or is a rename
produced at an earlier ordinal. -/
def SeenOk (seen : List (List Char)) (idx : Nat) : Prop :=
  ∀ s ∈ seen, headOk s = true ∨ ∃ j m, j < idx ∧ s = decRepr j ++ '_' :: m

theorem rename_not_mem (seen : List (List Char)) (idx : Nat)
    (hseen : SeenOk seen idx) (name : List Char) :
    (decRepr idx ++ '_' :: name) ∉ seen := by
  intro hmem
  rcases hseen _ hmem with h | ⟨j, m, hj, hs⟩
  · rw [rename_head_digit idx name] at h
    exact absurd h (by simp)
  · obtain ⟨hij, _⟩ := rename_inj hs
    omega

theorem arcsFrom_nodup_aux :
    ∀ (fs : List AFile) (seen : List (List Char)) (idx : Nat),
      (∀ f ∈ fs, headOk (basenameOf f.path) = true) → SeenOk seen idx →
      (arcsFrom seen idx fs).Nodup ∧ ∀ a ∈ arcsFrom seen idx fs, a ∉ seen := by
  intro fs
  induction fs with
  | nil =>
    intro seen idx _ _
    exact ⟨List.nodup_nil, by simp [arcsFrom]⟩
  | cons f fs ih =>
    intro seen idx hfs hseen
    have hname : headOk (basenameOf f.path) = true := hfs f (List.mem_cons_self _ _)
    have hfs' : ∀ g ∈ fs, headOk (basenameOf g.path) = true :=
      fun g hg => hfs g (List.mem_cons_of_mem _ hg)
    by_cases hn : basenameOf f.path ∈ seen
    · -- collision: the entry name is the rename f"{idx}_{name}"
      have harc : arcsFrom seen idx (f :: fs)
          = (decRepr idx ++ '_' :: basenameOf f.path)
            :: arcsFrom ((decRepr idx ++ '_' :: basenameOf f.path) :: seen) (idx + 1) fs := by
        simp [arcsFrom, hn]
      have hseen' : SeenOk ((decRepr idx ++ '_' :: basenameOf f.path) :: seen) (idx + 1) := by
        intro s hs
        rcases List.mem_cons.mp hs with h | h
        · right; exact ⟨idx, basenameOf f.path, by omega, h⟩
        · rcases hseen s h with h' | ⟨j, m, hj, hm⟩
          · left; exact h'
          · right; exact ⟨j, m, by omega, hm⟩
      obtain ⟨ih1, ih2⟩ := ih ((decRepr idx ++ '_' :: basenameOf f.path) :: seen) (idx + 1)
        hfs' hseen'
      rw [harc]
      constructor
      · rw [List.nodup_cons]
        exact ⟨fun hmem => (ih2 _ hmem) (List.mem_cons_self _ _), ih1⟩
      · intro a ha
        rcases List.mem_cons.mp ha with rfl | h
        · exact rename_not_mem seen idx hseen (basenameOf f.path)
        · exact fun hs => (ih2 a h) (List.mem_cons_of_mem _ hs)
    · -- fresh base name is used as-is
      have harc : arcsFrom seen idx (f :: fs)
          = basenameOf f.path
            :: arcsFrom (basenameOf f.path :: seen) (idx + 1) fs := by
        simp [arcsFrom, hn]
      have hseen' : SeenOk (basenameOf f.path :: seen) (idx + 1) := by
        intro s hs
        rcases List.mem_cons.mp hs with h | h
        · left; rw [h]; exact hname
        · rcases hseen s h with h' | ⟨j, m, hj, hm⟩
          · left; exact h'
          · right; exact ⟨j, m, by omega, hm⟩
      obtain ⟨ih1, ih2⟩ := ih (basenameOf f.path :: seen) (idx + 1) hfs' hseen'
      rw [harc]
      constructor
      · rw [List.nodup_cons]
        exact ⟨fun hmem => (ih2 _ hmem) (List.mem_cons_self _ _), ih1⟩
      · intro a ha
        rcases List.mem_cons.mp ha with rfl | h
        · exact hn
        · exact fun hs => (ih2 a h) (List.mem_cons_of_mem _ hs)

/-- C3 counterexample: the collision rule does *not* guarantee unique
entry names.  With base names `2_a`, `a`, `a` (in that order), the third
member's rename `f"{2}_{'a'}"` collides with the first member's plain
base name `2_a`: the resolved names are `[2_a, a, 2_a]`, not pairwise
distinct. -/
theorem c3_counterexample :
    arcsFrom [] 0
        [⟨"/d/2_a".toList, [1, 1]⟩, ⟨"/d/a".toList, [2]⟩, ⟨"/e/a".toList, [3]⟩]
      = ["2_a".toList, "a".toList, "2_a".toList] ∧
    ¬ (arcsFrom [] 0
        [⟨"/d/2_a".toList, [1, 1]⟩, ⟨"/d/a".toList, [2]⟩, ⟨"/e/a".toList, [3]⟩]).Nodup := by
  constructor
  · decide
  · decide

/-- C3 amended: the resolved entry names of a bundle's members are
pairwise distinct *provided no member's base name begins with a decimal
digit* (a base name of the form `<digits>_<rest>` can collide with the
rename `<ordinal>_<basename>` of a later member, see the counterexample).
The ordinal is the file's position in the enumeration driving the loop
(the overall input sequence for Single-File and By-Max-Size modes; the
chunk or group for By-File-Count / By-File-Type modes, which enumerate
per container). -/
theorem c3_amended_entry_names_distinct (files : List AFile)
    (h : ∀ f ∈ files, headOk (basenameOf f.path) = true) :
    (arcsFrom [] 0 files).Nodup :=
  (arcsFrom_nodup_aux files [] 0 h (by intro s hs; simp at hs)).1

theorem c3_witness :
    (∀ f ∈ [(⟨"/d/a".toList, [1]⟩ : AFile), ⟨"/e/a".toList, [2]⟩],
        headOk (basenameOf f.path) = true) ∧
      (arcsFrom [] 0 [(⟨"/d/a".toList, [1]⟩ : AFile), ⟨"/e/a".toList, [2]⟩]).Nodup :=
  ⟨by decide,
   c3_amended_entry_names_distinct
     [⟨"/d/a".toList, [1]⟩, ⟨"/e/a".toList, [2]⟩] (by decide)⟩

theorem arcsFrom_length (fs : List AFile) :
    ∀ seen idx, (arcsFrom seen idx fs).length = fs.length := by
  induction fs with
  | nil => intro seen idx; rfl
  | cons f fs ih => intro seen idx; simp [arcsFrom, ih]

theorem dget_append {α β : Type} [DecidableEq α] :
    ∀ (m m' : List (α × β)) (k : α), dget (m ++ m') k = (dget m k).or (dget m' k) := by
  intro m m' k
  induction m with
  | nil => simp [dget]
  | cons e es ih =>
    by_cases he : e.1 = k
    · simp [dget, he]
    · simp [dget, he, ih]

theorem foldl_dinsert_fresh {β : Type} :
    ∀ (ps : List (List Char × β)) (m : List (List Char × β)),
      (ps.map Prod.fst).Nodup → (∀ p ∈ ps, dget m p.1 = none) →
      ps.foldl (fun m p => dinsert m p.1 p.2) m = m ++ ps := by
  intro ps
  induction ps with
  | nil => intro m _ _; simp
  | cons p ps ih =>
    intro m hnd hfresh
    have hnd2 : (p.1 :: ps.map Prod.fst).Nodup := by rw [List.map_cons] at hnd; exact hnd
    have hnd' : (ps.map Prod.fst).Nodup := (List.nodup_cons.mp hnd2).2
    have hp1 : p.1 ∉ ps.map Prod.fst := (List.nodup_cons.mp hnd2).1
    have h1 : dinsert m p.1 p.2 = m ++ [p] := by
      rw [dinsert_fresh m p.1 p.2 (hfresh p (List.mem_cons_self _ _))]
    have hfresh' : ∀ q ∈ ps, dget (m ++ [p]) q.1 = none := by
      intro q hq
      rw [dget_append]
      have hq1 : dget m q.1 = none := hfresh q (List.mem_cons_of_mem _ hq)
      have hqp : p.1 ≠ q.1 := by
        intro hcontra
        exact hp1 (hcontra ▸ List.mem_map_of_mem Prod.fst hq)
      simp [hq1, dget, hqp]
    calc (p :: ps).foldl (fun m p => dinsert m p.1 p.2) m
        = ps.foldl (fun m p => dinsert m p.1 p.2) (m ++ [p]) := by
          simp [List.foldl_cons, h1]
      _ = (m ++ [p]) ++ ps := ih (m ++ [p]) hnd' hfresh'
      _ = m ++ p :: ps := by simp

/-- All-members-succeed characterization of the Single File archive loop:
no failure, entries are the resolved names paired with the copied bytes,
the manifest is the fold of dict stores over names and paths, and exactly
the members' source paths are deleted. -/
theorem saGo_ok_spec (ok : AFile → Bool) :
    ∀ (fs : List AFile) (seen : List (List Char)) (idx : Nat)
      (entries : List (List Char × List Nat)) (manifest : List (List Char × List Char))
      (deleted : List (List Char)),
      (∀ f ∈ fs, ok f = true) →
      (saGo ok seen idx entries manifest deleted fs).failed = false ∧
      (saGo ok seen idx entries manifest deleted fs).entries
        = entries ++ (arcsFrom seen idx fs).zip (fs.map (fun f => f.content)) ∧
      (saGo ok seen idx entries manifest deleted fs).manifest
        = ((arcsFrom seen idx fs).zip (fs.map (fun f => f.path))).foldl
            (fun m p => dinsert m p.1 p.2) manifest ∧
      (saGo ok seen idx entries manifest deleted fs).deleted
        = deleted ++ fs.map (fun f => f.path) := by
  intro fs
  induction fs with
  | nil =>
    intro seen idx entries manifest deleted _
    exact ⟨rfl, by simp [saGo, arcsFrom], by simp [saGo, arcsFrom], by simp [saGo]⟩
  | cons f fs ih =>
    intro seen idx entries manifest deleted hok
    have hf : ok f = true := hok f (List.mem_cons_self _ _)
    have hok' : ∀ g ∈ fs, ok g = true := fun g hg => hok g (List.mem_cons_of_mem _ hg)
    have hstep : saGo ok seen idx entries manifest deleted (f :: fs)
        = saGo ok
            ((if basenameOf f.path ∈ seen then decRepr idx ++ '_' :: basenameOf f.path
              else basenameOf f.path) :: seen) (idx + 1)
            (entries ++ [((if basenameOf f.path ∈ seen
                then decRepr idx ++ '_' :: basenameOf f.path else basenameOf f.path),
              f.content)])
            (dinsert manifest
              (if basenameOf f.path ∈ seen then decRepr idx ++ '_' :: basenameOf f.path
                else basenameOf f.path) f.path)
            (deleted ++ [f.path]) fs := by
      simp only [saGo, hf, if_true]
    obtain ⟨ih1, ih2, ih3, ih4⟩ := ih
      ((if basenameOf f.path ∈ seen then decRepr idx ++ '_' :: basenameOf f.path
        else basenameOf f.path) :: seen) (idx + 1)
      (entries ++ [((if basenameOf f.path ∈ seen
          then decRepr idx ++ '_' :: basenameOf f.path else basenameOf f.path), f.content)])
      (dinsert manifest
        (if basenameOf f.path ∈ seen then decRepr idx ++ '_' :: basenameOf f.path
          else basenameOf f.path) f.path)
      (deleted ++ [f.path]) hok'
    refine ⟨by rw [hstep]; exact ih1, ?_, ?_, ?_⟩
    · rw [hstep, ih2]
      simp [arcsFrom, List.zip_cons_cons]
    · rw [hstep, ih3]
      simp [arcsFrom, List.zip_cons_cons]
    · rw [hstep, ih4]
      simp

theorem extractLast_cons_ne (e : List Char × List Nat) (es : List (List Char × List Nat))
    (n : List Char) (h : e.1 ≠ n) : extractLast (e :: es) n = extractLast es n := by
  cases hc : extractLast es n <;> simp [extractLast, hc, h]

theorem extractLast_not_mem (es : List (List Char × List Nat)) (n : List Char)
    (h : ∀ e ∈ es, e.1 ≠ n) : extractLast es n = none := by
  induction es with
  | nil => rfl
  | cons e es ih =>
    rw [extractLast_cons_ne e es n (h e (List.mem_cons_self _ _))]
    exact ih (fun e' he' => h e' (List.mem_cons_of_mem _ he'))

theorem extractLast_append (xs ys : List (List Char × List Nat)) (n : List Char) :
    extractLast (xs ++ ys) n = (extractLast ys n).or (extractLast xs n) := by
  induction xs with
  | nil => cases hc : extractLast ys n <;> simp [extractLast, hc]
  | cons e xs ih =>
    show (match extractLast (xs ++ ys) n with
      | some c => some c
      | none => if e.1 = n then some e.2 else none)
      = (extractLast ys n).or (match extractLast xs n with
        | some c => some c
        | none => if e.1 = n then some e.2 else none)
    rw [ih]
    cases hy : extractLast ys n <;> cases hx : extractLast xs n <;> simp [Option.or]

theorem zip_getElem?_fst {α β : Type} :
    ∀ (as : List α) (bs : List β) (i : Nat) (a : α) (b : β),
      (as.zip bs)[i]? = some (a, b) → as[i]? = some a ∧ bs[i]? = some b := by
  intro as
  induction as with
  | nil => intro bs i a b h; simp at h
  | cons x as ih =>
    intro bs i a b h
    cases bs with
    | nil => simp at h
    | cons y bs =>
      match i with
      | 0 =>
        simp only [List.zip_cons_cons, List.getElem?_cons_zero, Option.some.injEq,
          Prod.mk.injEq] at h
        simp [h.1, h.2]
      | i + 1 =>
        simp only [List.zip_cons_cons, List.getElem?_cons_succ] at h ⊢
        exact ih bs i a b h

theorem zip_getElem?_of {α β : Type} :
    ∀ (as : List α) (bs : List β) (i : Nat) (a : α) (b : β),
      as[i]? = some a → bs[i]? = some b → (as.zip bs)[i]? = some (a, b) := by
  intro as
  induction as with
  | nil => intro bs i a b h _; simp at h
  | cons x as ih =>
    intro bs i a b ha hb
    cases bs with
    | nil => simp at hb
    | cons y bs =>
      match i with
      | 0 =>
        simp only [List.getElem?_cons_zero, Option.some.injEq] at ha hb
        simp [List.zip_cons_cons, ha, hb]
      | i + 1 =>
        simp only [List.getElem?_cons_succ] at ha hb
        simp only [List.zip_cons_cons, List.getElem?_cons_succ]
        exact ih bs i a b ha hb

/-- In a container whose entry names are pairwise distinct, the restore
of the entry at position `i` yields exactly its bytes. -/
theorem lookup_zip_nodup :
    ∀ (arcs : List (List Char)) (cs : List (List Nat)),
      arcs.Nodup → arcs.length = cs.length →
      ∀ (i : Nat) (a : List Char), arcs[i]? = some a →
        extractLast (arcs.zip cs) a = cs[i]? := by
  intro arcs
  induction arcs with
  | nil => intro cs _ _ i a h; simp at h
  | cons a0 arcs ih =>
    intro cs hnd hlen i a hget
    cases cs with
    | nil => simp at hlen
    | cons c0 cs =>
      have hnd' : arcs.Nodup := (List.nodup_cons.mp hnd).2
      have ha0 : a0 ∉ arcs := (List.nodup_cons.mp hnd).1
      match i with
      | 0 =>
        simp only [List.getElem?_cons_zero, Option.some.injEq] at hget
        subst hget
        have hnone : extractLast (arcs.zip cs) a0 = none := by
          apply extractLast_not_mem
          rintro ⟨x, y⟩ he hcontra
          cases hcontra
          exact ha0 (List.of_mem_zip he).1
        rw [List.zip_cons_cons]
        have hunf : extractLast ((a0, c0) :: arcs.zip cs) a0
            = match extractLast (arcs.zip cs) a0 with
              | some c => some c
              | none => if (a0, c0).1 = a0 then some (a0, c0).2 else none := rfl
        rw [hunf, hnone]
        simp
      | i + 1 =>
        simp only [List.getElem?_cons_succ] at hget
        have hmem : a ∈ arcs := List.getElem?_mem hget
        have hne : a0 ≠ a := fun hcontra => ha0 (hcontra ▸ hmem)
        rw [List.zip_cons_cons, extractLast_cons_ne (a0, c0) _ a hne,
          List.getElem?_cons_succ]
        exact ih cs hnd' (by simpa using hlen) i a hget

theorem map_lookup_sum :
    ∀ (mani : List (List Char × List Char)) (cs : List (List Nat))
      (cont : List (List Char × List Nat)),
      mani.length = cs.length →
      (∀ (i : Nat) (a p : List Char), mani[i]? = some (a, p) →
        extractLast cont a = cs[i]?) →
      (mani.map (fun e => ((extractLast cont e.1).getD []).length)).sum
        = (cs.map (fun c => c.length)).sum := by
  intro mani
  induction mani with
  | nil =>
    intro cs cont hlen _
    cases cs with
    | nil => rfl
    | cons c cs => simp at hlen
  | cons e mani ih =>
    intro cs cont hlen hpt
    cases cs with
    | nil => simp at hlen
    | cons c cs =>
      have h0 : extractLast cont e.1 = some c := by
        have := hpt 0 e.1 e.2 (by simp)
        simpa using this
      have htail : ∀ (i : Nat) (a p : List Char), mani[i]? = some (a, p) →
          extractLast cont a = cs[i]? := by
        intro i a p h
        have := hpt (i + 1) a p (by simpa using h)
        simpa using this
      simp only [List.map_cons, List.sum_cons, h0, Option.getD_some]
      rw [ih cs cont (by simpa using hlen) htail]

/-- C2 amended: if every member of a Single-File-mode bundle is
successfully written *and the resolved entry names are pairwise distinct
and none of them is `manifest.json`*, then restoring the container into
an empty destination reproduces a byte-identical copy of every archived
file under its manifest entry name, and the total restored byte count of
the manifest-named files equals the pre-archive total.  (Without the
extra conditions the claim fails: a colliding entry name overwrites an
earlier member's bytes and manifest entry — see the counterexample.) -/
theorem c2_amended_archive_restore_roundtrip (ok : AFile → Bool) (files : List AFile)
    (hok : ∀ f ∈ files, ok f = true)
    (hnd : (arcsFrom [] 0 files).Nodup)
    (hmj : mjN ∉ arcsFrom [] 0 files) :
    (∀ (i : Nat) (f : AFile), files[i]? = some f → ∃ a,
      (arcsFrom [] 0 files)[i]? = some a ∧
      (saRun ok files).manifest[i]? = some (a, f.path) ∧
      extractLast (saContainer ok files) a = some f.content) ∧
    restoredTotal (saRun ok files).manifest (saContainer ok files)
      = (files.map (fun f => f.content.length)).sum := by
  obtain ⟨hfail, hent, hman, hdel⟩ := saGo_ok_spec ok files [] 0 [] [] [] hok
  have hlen : (arcsFrom [] 0 files).length = files.length := arcsFrom_length files [] 0
  have hzipnd :
      (((arcsFrom [] 0 files).zip (files.map (fun f => f.path))).map Prod.fst).Nodup := by
    rw [List.map_fst_zip]
    · exact hnd
    · simp [hlen]
  have hman' : (saRun ok files).manifest
      = (arcsFrom [] 0 files).zip (files.map (fun f => f.path)) := by
    rw [show (saRun ok files).manifest = _ from hman,
      foldl_dinsert_fresh _ [] hzipnd (fun p _ => rfl)]
    simp
  have hent' : (saRun ok files).entries
      = (arcsFrom [] 0 files).zip (files.map (fun f => f.content)) := by
    rw [show (saRun ok files).entries = _ from hent]
    simp
  have hcont : saContainer ok files
      = (arcsFrom [] 0 files).zip (files.map (fun f => f.content))
        ++ [(mjN, encodeManifest ((saRun ok files).manifest))] := by
    rw [saContainer]
    simp only [show (saRun ok files).failed = false from hfail]
    rw [hent']
    simp
  have hlook : ∀ (i : Nat) (a : List Char), (arcsFrom [] 0 files)[i]? = some a →
      extractLast (saContainer ok files) a = (files.map (fun f => f.content))[i]? := by
    intro i a ha
    have hamem : a ∈ arcsFrom [] 0 files := List.getElem?_mem ha
    have hane : a ≠ mjN := fun hc => hmj (hc ▸ hamem)
    rw [hcont, extractLast_append]
    have h1 : extractLast [(mjN, encodeManifest ((saRun ok files).manifest))] a = none := by
      apply extractLast_not_mem
      intro e he
      rw [List.mem_singleton] at he
      rw [he]
      exact fun hc => hane hc.symm
    rw [h1]
    have h2 := lookup_zip_nodup (arcsFrom [] 0 files) (files.map (fun f => f.content))
      hnd (by simp [hlen]) i a ha
    rw [h2]
    rfl
  constructor
  · intro i f hif
    have hi : i < files.length := (List.getElem?_eq_some.mp hif).1
    have hia : i < (arcsFrom [] 0 files).length := by omega
    refine ⟨(arcsFrom [] 0 files)[i], List.getElem?_eq_getElem hia, ?_, ?_⟩
    · rw [hman']
      apply zip_getElem?_of
      · exact List.getElem?_eq_getElem hia
      · rw [List.getElem?_map, hif]
        rfl
    · rw [hlook i _ (List.getElem?_eq_getElem hia), List.getElem?_map, hif]
      rfl
  · rw [restoredTotal, hman']
    have hsum := map_lookup_sum
      ((arcsFrom [] 0 files).zip (files.map (fun f => f.path)))
      (files.map (fun f => f.content)) (saContainer ok files)
      (by simp [hlen]) ?_
    · rw [hsum, List.map_map]
      rfl
    · intro i a p h
      obtain ⟨ha, _⟩ := zip_getElem?_fst _ _ i a p h
      exact hlook i a ha

/-- C2 counterexample: all three members are written successfully, but
base names `2_a`, `a`, `a` make the third member's resolved entry name
collide with the first member's (`2_a`), so the zip holds two entries
named `2_a`, extraction leaves only the later one's bytes, and the first
file's 2 bytes are lost: the restored byte total over the manifest's
files is 2, while the pre-archive total is 4. -/
theorem c2_counterexample :
    (∀ f ∈ [(⟨"/d/2_a".toList, [1, 1]⟩ : AFile), ⟨"/d/a".toList, [2]⟩,
        ⟨"/e/a".toList, [3]⟩], (fun _ => true : AFile → Bool) f = true) ∧
    restoredTotal
        (saRun (fun _ => true)
          [⟨"/d/2_a".toList, [1, 1]⟩, ⟨"/d/a".toList, [2]⟩, ⟨"/e/a".toList, [3]⟩]).manifest
        (saContainer (fun _ => true)
          [⟨"/d/2_a".toList, [1, 1]⟩, ⟨"/d/a".toList, [2]⟩, ⟨"/e/a".toList, [3]⟩])
      = 2 ∧
    ([(⟨"/d/2_a".toList, [1, 1]⟩ : AFile), ⟨"/d/a".toList, [2]⟩,
        ⟨"/e/a".toList, [3]⟩].map (fun f => f.content.length)).sum = 4 := by
  refine ⟨by decide, by decide, by decide⟩

theorem c2_witness :
    (∀ f ∈ [(⟨"/d/a".toList, [1]⟩ : AFile), ⟨"/d/b".toList, [2, 3]⟩],
        (fun _ => true : AFile → Bool) f = true) ∧
    (arcsFrom [] 0 [(⟨"/d/a".toList, [1]⟩ : AFile), ⟨"/d/b".toList, [2, 3]⟩]).Nodup ∧
    mjN ∉ arcsFrom [] 0 [(⟨"/d/a".toList, [1]⟩ : AFile), ⟨"/d/b".toList, [2, 3]⟩] ∧
    restoredTotal
        (saRun (fun _ => true) [⟨"/d/a".toList, [1]⟩, ⟨"/d/b".toList, [2, 3]⟩]).manifest
        (saContainer (fun _ => true) [⟨"/d/a".toList, [1]⟩, ⟨"/d/b".toList, [2, 3]⟩])
      = ([(⟨"/d/a".toList, [1]⟩ : AFile), ⟨"/d/b".toList, [2, 3]⟩].map
          (fun f => f.content.length)).sum :=
  ⟨by decide, by decide, by decide,
   (c2_amended_archive_restore_roundtrip (fun _ => true)
     [⟨"/d/a".toList, [1]⟩, ⟨"/d/b".toList, [2, 3]⟩]
     (by decide) (by decide) (by decide)).2⟩

theorem mem_foldl_dinsert {β : Type} :
    ∀ (ps : List (List Char × β)) (m : List (List Char × β)) (e : List Char × β),
      e ∈ ps.foldl (fun m p => dinsert m p.1 p.2) m → e ∈ m ∨ e ∈ ps := by
  intro ps
  induction ps with
  | nil => intro m e h; exact Or.inl h
  | cons p ps ih =>
    intro m e h
    rcases ih (dinsert m p.1 p.2) e h with h1 | h1
    · rcases mem_dinsert m p.1 p.2 e h1 with h2 | h2
      · exact Or.inl h2
      · right
        rw [h2]
        exact List.mem_cons_self _ _
    · exact Or.inr (List.mem_cons_of_mem _ h1)

/-- Behaviour of the Single-File archive loop when a member copy raises:
the members before the failing one are archived and deleted, the failure
flag is set (so `manifest.json` is never written), and nothing after the
failing member is processed. -/
theorem saGo_fail_spec (ok : AFile → Bool) (bad : AFile) (post : List AFile)
    (hbad : ok bad = false) :
    ∀ (pre : List AFile) (seen : List (List Char)) (idx : Nat)
      (entries : List (List Char × List Nat)) (manifest : List (List Char × List Char))
      (deleted : List (List Char)),
      (∀ f ∈ pre, ok f = true) →
      (saGo ok seen idx entries manifest deleted (pre ++ bad :: post)).failed = true ∧
      (saGo ok seen idx entries manifest deleted (pre ++ bad :: post)).entries
        = entries ++ (arcsFrom seen idx pre).zip (pre.map (fun f => f.content)) ∧
      (saGo ok seen idx entries manifest deleted (pre ++ bad :: post)).manifest
        = ((arcsFrom seen idx pre).zip (pre.map (fun f => f.path))).foldl
            (fun m p => dinsert m p.1 p.2) manifest ∧
      (saGo ok seen idx entries manifest deleted (pre ++ bad :: post)).deleted
        = deleted ++ pre.map (fun f => f.path) := by
  intro pre
  induction pre with
  | nil =>
    intro seen idx entries manifest deleted _
    have hstep : saGo ok seen idx entries manifest deleted ([] ++ bad :: post)
        = ⟨entries, manifest,
            (if basenameOf bad.path ∈ seen then decRepr idx ++ '_' :: basenameOf bad.path
              else basenameOf bad.path) :: seen, deleted, true⟩ := by
      simp only [List.nil_append, saGo, hbad, Bool.false_eq_true, if_false]
    rw [hstep]
    exact ⟨rfl, by simp [arcsFrom], by simp [arcsFrom], by simp⟩
  | cons f pre ih =>
    intro seen idx entries manifest deleted hok
    have hf : ok f = true := hok f (List.mem_cons_self _ _)
    have hok' : ∀ g ∈ pre, ok g = true := fun g hg => hok g (List.mem_cons_of_mem _ hg)
    have hstep : saGo ok seen idx entries manifest deleted ((f :: pre) ++ bad :: post)
        = saGo ok
            ((if basenameOf f.path ∈ seen then decRepr idx ++ '_' :: basenameOf f.path
              else basenameOf f.path) :: seen) (idx + 1)
            (entries ++ [((if basenameOf f.path ∈ seen
                then decRepr idx ++ '_' :: basenameOf f.path else basenameOf f.path),
              f.content)])
            (dinsert manifest
              (if basenameOf f.path ∈ seen then decRepr idx ++ '_' :: basenameOf f.path
                else basenameOf f.path) f.path)
            (deleted ++ [f.path]) (pre ++ bad :: post) := by
      simp only [List.cons_append, saGo, hf, if_true]
      try rfl
    obtain ⟨ih1, ih2, ih3, ih4⟩ := ih
      ((if basenameOf f.path ∈ seen then decRepr idx ++ '_' :: basenameOf f.path
        else basenameOf f.path) :: seen) (idx + 1)
      (entries ++ [((if basenameOf f.path ∈ seen
          then decRepr idx ++ '_' :: basenameOf f.path else basenameOf f.path), f.content)])
      (dinsert manifest
        (if basenameOf f.path ∈ seen then decRepr idx ++ '_' :: basenameOf f.path
          else basenameOf f.path) f.path)
      (deleted ++ [f.path]) hok'
    refine ⟨by rw [hstep]; exact ih1, ?_, ?_, ?_⟩
    · rw [hstep, ih2]
      simp [arcsFrom, List.zip_cons_cons]
    · rw [hstep, ih3]
      simp [arcsFrom, List.zip_cons_cons]
    · rw [hstep, ih4]
      simp

/-- C5 counterexample: the per-member loop has no exception handler, so a
copy failure aborts the remaining members.  With two members where the
copy of the *first* raises and the copy of the second would succeed, the
container ends up with no entries and nothing is deleted: the second
(remaining) member is *not* processed, refuting "all remaining members of
the bundle are still processed; a per-member copy failure never aborts
the rest of the bundle". -/
theorem c5_counterexample :
    (fun f => decide (f.path ≠ "/d/a".toList) : AFile → Bool) ⟨"/d/a".toList, [1]⟩ = false ∧
    (fun f => decide (f.path ≠ "/d/a".toList) : AFile → Bool) ⟨"/d/b".toList, [2]⟩ = true ∧
    (saRun (fun f => decide (f.path ≠ "/d/a".toList))
      [⟨"/d/a".toList, [1]⟩, ⟨"/d/b".toList, [2]⟩]).failed = true ∧
    (saRun (fun f => decide (f.path ≠ "/d/a".toList))
      [⟨"/d/a".toList, [1]⟩, ⟨"/d/b".toList, [2]⟩]).entries = [] ∧
    (saRun (fun f => decide (f.path ≠ "/d/a".toList))
      [⟨"/d/a".toList, [1]⟩, ⟨"/d/b".toList, [2]⟩]).deleted = [] := by
  refine ⟨by decide, by decide, by decide, by decide, by decide⟩

/-- C5 amended: when copying member `bad` fails, `bad` stays on disk (it
is not deleted) and gets no manifest entry, and the members *before* it
are archived and deleted — but the remaining members are *not* processed:
the loop aborts, nothing after `bad` is written or deleted, and no
`manifest.json` is stored in the container. -/
theorem c5_amended_member_failure_aborts (ok : AFile → Bool)
    (pre : List AFile) (bad : AFile) (post : List AFile)
    (hpre : ∀ f ∈ pre, ok f = true) (hbad : ok bad = false)
    (hbp : bad.path ∉ pre.map (fun f => f.path)) :
    (saRun ok (pre ++ bad :: post)).failed = true ∧
    (saRun ok (pre ++ bad :: post)).entries
      = (arcsFrom [] 0 pre).zip (pre.map (fun f => f.content)) ∧
    (saRun ok (pre ++ bad :: post)).deleted = pre.map (fun f => f.path) ∧
    bad.path ∉ (saRun ok (pre ++ bad :: post)).deleted ∧
    (∀ e ∈ (saRun ok (pre ++ bad :: post)).manifest, e.2 ≠ bad.path) ∧
    saContainer ok (pre ++ bad :: post) = (saRun ok (pre ++ bad :: post)).entries := by
  obtain ⟨h1, h2, h3, h4⟩ := saGo_fail_spec ok bad post hbad pre [] 0 [] [] [] hpre
  refine ⟨h1, by rw [show (saRun ok (pre ++ bad :: post)).entries = _ from h2]; simp,
    by rw [show (saRun ok (pre ++ bad :: post)).deleted = _ from h4]; simp, ?_, ?_, ?_⟩
  · rw [show (saRun ok (pre ++ bad :: post)).deleted = _ from h4]
    simpa using hbp
  · intro e he
    rw [show (saRun ok (pre ++ bad :: post)).manifest = _ from h3] at he
    rcases mem_foldl_dinsert _ [] e he with h | h
    · simp at h
    · have := (List.of_mem_zip h).2
      intro hc
      exact hbp (by rw [← hc]; exact this)
  · rw [saContainer]
    simp only [show (saRun ok (pre ++ bad :: post)).failed = true from h1]
    simp

theorem c5_witness :
    (∀ f ∈ [(⟨"/d/b".toList, [2]⟩ : AFile)],
        (fun f => decide (f.path ≠ "/d/a".toList) : AFile → Bool) f = true) ∧
    (fun f => decide (f.path ≠ "/d/a".toList) : AFile → Bool) ⟨"/d/a".toList, [1]⟩ = false ∧
    (⟨"/d/a".toList, [1]⟩ : AFile).path ∉
      [(⟨"/d/b".toList, [2]⟩ : AFile)].map (fun f => f.path) ∧
    ((saRun (fun f => decide (f.path ≠ "/d/a".toList))
        ([⟨"/d/b".toList, [2]⟩] ++ (⟨"/d/a".toList, [1]⟩ : AFile) :: [])).failed = true ∧
      (saRun (fun f => decide (f.path ≠ "/d/a".toList))
          ([⟨"/d/b".toList, [2]⟩] ++ (⟨"/d/a".toList, [1]⟩ : AFile) :: [])).entries
        = (arcsFrom [] 0 [⟨"/d/b".toList, [2]⟩]).zip
            ([(⟨"/d/b".toList, [2]⟩ : AFile)].map (fun f => f.content)) ∧
      (saRun (fun f => decide (f.path ≠ "/d/a".toList))
          ([⟨"/d/b".toList, [2]⟩] ++ (⟨"/d/a".toList, [1]⟩ : AFile) :: [])).deleted
        = [(⟨"/d/b".toList, [2]⟩ : AFile)].map (fun f => f.path) ∧
      (⟨"/d/a".toList, [1]⟩ : AFile).path ∉
        (saRun (fun f => decide (f.path ≠ "/d/a".toList))
          ([⟨"/d/b".toList, [2]⟩] ++ (⟨"/d/a".toList, [1]⟩ : AFile) :: [])).deleted ∧
      (∀ e ∈ (saRun (fun f => decide (f.path ≠ "/d/a".toList))
          ([⟨"/d/b".toList, [2]⟩] ++ (⟨"/d/a".toList, [1]⟩ : AFile) :: [])).manifest,
        e.2 ≠ (⟨"/d/a".toList, [1]⟩ : AFile).path) ∧
      saContainer (fun f => decide (f.path ≠ "/d/a".toList))
          ([⟨"/d/b".toList, [2]⟩] ++ (⟨"/d/a".toList, [1]⟩ : AFile) :: [])
        = (saRun (fun f => decide (f.path ≠ "/d/a".toList))
            ([⟨"/d/b".toList, [2]⟩] ++ (⟨"/d/a".toList, [1]⟩ : AFile) :: [])).entries) :=
  ⟨by decide, by decide, by decide,
   c5_amended_member_failure_aborts (fun f => decide (f.path ≠ "/d/a".toList))
     [⟨"/d/b".toList, [2]⟩] ⟨"/d/a".toList, [1]⟩ [] (by decide) (by decide) (by decide)⟩

/-! ## CleanupApp.archive_selected — By Max Size mode (lines 349–364)

State machine for the split-archive loop.  Fidelity notes against the
source: `zf is None` is the `opened = false` state; closing a zip appends
it to the finished list (the `archive_part<N>` numbering, which only
names output files, is elided); `seen` is cleared per part but `manifest`
is *not* (line 353 initializes it once, outside the part rotation);
after the loop, `manifest.json` is written into the still-open *last*
container only (line 363). -/

/-- One physical container: the members written into it and its entries. -/
structure MSZip where
  members : List AFile
  entries : List (List Char × List Nat)
  deriving DecidableEq

structure MSState where
  zips : List MSZip
  cur : MSZip
  opened : Bool
  current : Nat
  seen : List (List Char)
  manifest : List (List Char × List Char)
  deleted : List (List Char)
  deriving DecidableEq

/-- Lines 354–362: one iteration of the By-Max-Size loop. -/
def msStep (maxB : Nat) (idx : Nat) (st : MSState) (f : AFile) : MSState :=
  let sz := f.content.length
  let st1 : MSState :=
    if st.opened = false ∨ st.current + sz > maxB then
      { st with
          zips := if st.opened then st.zips ++ [st.cur] else st.zips,
          cur := ⟨[], []⟩, opened := true, current := 0, seen := [] }
    else st
  let name := basenameOf f.path
  let arc := if name ∈ st1.seen then decRepr idx ++ '_' :: name else name
  { st1 with
      cur := ⟨st1.cur.members ++ [f], st1.cur.entries ++ [(arc, f.content)]⟩,
      seen := arc :: st1.seen,
      manifest := dinsert st1.manifest arc f.path,
      deleted := st1.deleted ++ [f.path],
      current := st1.current + sz }

def msGo (maxB : Nat) : Nat → MSState → List AFile → MSState
  | _, st, [] => st
  | idx, st, f :: fs => msGo maxB (idx + 1) (msStep maxB idx st f) fs

/-- Line 363: `if zf: zf.writestr("manifest.json", ...); zf.close()` —
the combined manifest goes into the still-open last container only. -/
def msFinal (st : MSState) : List MSZip :=
  if st.opened then
    st.zips ++ [⟨st.cur.members, st.cur.entries ++ [(mjN, encodeManifest st.manifest)]⟩]
  else st.zips

def msInit : MSState := ⟨[], ⟨[], []⟩, false, 0, [], [], []⟩

def msRun (maxB : Nat) (files : List AFile) : MSState := msGo maxB 0 msInit files

/-- The list of containers the By-Max-Size mode writes. -/
def msZips (maxB : Nat) (files : List AFile) : List MSZip := msFinal (msRun maxB files)

def sizeSum (b : List AFile) : Nat := (b.map (fun f => f.content.length)).sum

/-- A well-formed bundle: non-empty, and within the size limit unless it
is a single oversized file. -/
def GoodB (maxB : Nat) (b : List AFile) : Prop :=
  b ≠ [] ∧ (sizeSum b ≤ maxB ∨ ∃ f, b = [f] ∧ maxB < f.content.length)

theorem msStep_rot (maxB idx : Nat) (st : MSState) (f : AFile)
    (h : st.opened = false ∨ st.current + f.content.length > maxB) :
    msStep maxB idx st f =
      { zips := if st.opened then st.zips ++ [st.cur] else st.zips,
        cur := ⟨[f], [(basenameOf f.path, f.content)]⟩,
        opened := true,
        current := f.content.length,
        seen := [basenameOf f.path],
        manifest := dinsert st.manifest (basenameOf f.path) f.path,
        deleted := st.deleted ++ [f.path] } := by
  unfold msStep
  simp only [if_pos h]
  simp

theorem msStep_norot (maxB idx : Nat) (st : MSState) (f : AFile)
    (h : ¬(st.opened = false ∨ st.current + f.content.length > maxB)) :
    msStep maxB idx st f =
      { st with
          cur := ⟨st.cur.members ++ [f], st.cur.entries ++
            [((if basenameOf f.path ∈ st.seen then decRepr idx ++ '_' :: basenameOf f.path
               else basenameOf f.path), f.content)]⟩,
          seen := (if basenameOf f.path ∈ st.seen
              then decRepr idx ++ '_' :: basenameOf f.path
              else basenameOf f.path) :: st.seen,
          manifest := dinsert st.manifest
            (if basenameOf f.path ∈ st.seen then decRepr idx ++ '_' :: basenameOf f.path
              else basenameOf f.path) f.path,
          deleted := st.deleted ++ [f.path],
          current := st.current + f.content.length } := by
  unfold msStep
  simp only [if_neg h]

theorem sizeSum_append (a : List AFile) (f : AFile) :
    sizeSum (a ++ [f]) = sizeSum a + f.content.length := by
  simp [sizeSum]


/-- Size/shape invariant of the By-Max-Size loop: every closed container
is a good bundle, and the members of all containers concatenate to the
processed input in order. -/
theorem msGo_members (maxB : Nat) :
    ∀ (fs : List AFile) (idx : Nat) (st : MSState),
      (∀ z ∈ st.zips, GoodB maxB z.members) →
      (st.opened = true → st.cur.members ≠ [] ∧ st.current = sizeSum st.cur.members ∧
        GoodB maxB st.cur.members) →
      (st.opened = false → st.cur.members = []) →
      (∀ z ∈ msFinal (msGo maxB idx st fs), GoodB maxB z.members) ∧
      ((msFinal (msGo maxB idx st fs)).map (fun z => z.members)).flatten
        = (st.zips.map (fun z => z.members)).flatten ++ st.cur.members ++ fs := by
  intro fs
  induction fs with
  | nil =>
    intro idx st hz hop hcl
    show (∀ z ∈ msFinal st, GoodB maxB z.members) ∧
      ((msFinal st).map (fun z => z.members)).flatten
        = (st.zips.map (fun z => z.members)).flatten ++ st.cur.members ++ []
    unfold msFinal
    cases hopn : st.opened with
    | false =>
      have hc := hcl hopn
      constructor
      · simpa using hz
      · simp [hc]
    | true =>
      obtain ⟨h1, h2, h3⟩ := hop hopn
      constructor
      · intro z hzmem
        simp only [if_true, List.mem_append, List.mem_singleton] at hzmem
        rcases hzmem with hmem | hmem
        · exact hz z hmem
        · rw [hmem]
          exact h3
      · simp
  | cons f fs ih =>
    intro idx st hz hop hcl
    show (∀ z ∈ msFinal (msGo maxB (idx + 1) (msStep maxB idx st f) fs), GoodB maxB z.members) ∧
      ((msFinal (msGo maxB (idx + 1) (msStep maxB idx st f) fs)).map
          (fun z => z.members)).flatten
        = (st.zips.map (fun z => z.members)).flatten ++ st.cur.members ++ (f :: fs)
    by_cases hrot : st.opened = false ∨ st.current + f.content.length > maxB
    · rw [msStep_rot maxB idx st f hrot]
      have hz' : ∀ z ∈ (if st.opened then st.zips ++ [st.cur] else st.zips),
          GoodB maxB z.members := by
        cases hopn : st.opened with
        | false => simpa using hz
        | true =>
          simp only [if_true]
          intro z hzmem
          rcases List.mem_append.mp hzmem with hmem | hmem
          · exact hz z hmem
          · rw [List.mem_singleton] at hmem
            rw [hmem]
            exact (hop hopn).2.2
      obtain ⟨ihA, ihB⟩ := ih (idx + 1)
        { zips := if st.opened then st.zips ++ [st.cur] else st.zips,
          cur := ⟨[f], [(basenameOf f.path, f.content)]⟩,
          opened := true,
          current := f.content.length,
          seen := [basenameOf f.path],
          manifest := dinsert st.manifest (basenameOf f.path) f.path,
          deleted := st.deleted ++ [f.path] }
        hz'
        (by
          intro _
          refine ⟨by simp, by simp [sizeSum], by simp, ?_⟩
          rcases le_or_lt f.content.length maxB with hle | hlt
          · left
            simpa [sizeSum] using hle
          · right
            exact ⟨f, rfl, hlt⟩)
        (by intro h; simp at h)
      refine ⟨ihA, ?_⟩
      rw [ihB]
      cases hopn : st.opened with
      | false =>
        have hc := hcl hopn
        simp [hc]
      | true =>
        simp only [if_true, List.map_append, List.flatten_append]
        simp
    · have hopn : st.opened = true := by
        rcases Bool.eq_false_or_eq_true st.opened with h | h
        · exact h
        · exact absurd (Or.inl h) hrot
      have hle : st.current + f.content.length ≤ maxB := by
        rcases Nat.lt_or_ge maxB (st.current + f.content.length) with h | h
        · exact absurd (Or.inr h) hrot
        · omega
      obtain ⟨h1, h2, h3⟩ := hop hopn
      have hzips : (msStep maxB idx st f).zips = st.zips := by
        rw [msStep_norot maxB idx st f hrot]
      have hcur : (msStep maxB idx st f).cur.members = st.cur.members ++ [f] := by
        rw [msStep_norot maxB idx st f hrot]
      have hcurrent : (msStep maxB idx st f).current = st.current + f.content.length := by
        rw [msStep_norot maxB idx st f hrot]
      have hopen : (msStep maxB idx st f).opened = st.opened := by
        rw [msStep_norot maxB idx st f hrot]
      obtain ⟨ihA, ihB⟩ := ih (idx + 1) (msStep maxB idx st f)
        (by rw [hzips]; exact hz)
        (by
          intro _
          rw [hcur, hcurrent]
          refine ⟨by simp, by rw [sizeSum_append, h2], by simp, Or.inl ?_⟩
          rw [sizeSum_append, ← h2]
          exact hle)
        (by
          intro h
          rw [hopen, hopn] at h
          cases h)
      refine ⟨ihA, ?_⟩
      rw [ihB, hzips, hcur]
      simp

/-- C7: the By-Max-Size strategy partitions the input, in order, into
non-empty bundles; every bundle's total member size is at most the limit,
except a bundle holding a single file that is itself larger than the
limit, which stands alone. -/
theorem c7_max_size_partition (maxB : Nat) (files : List AFile) (hpos : 0 < maxB) :
    ((msZips maxB files).map (fun z => z.members)).flatten = files ∧
    (∀ b ∈ (msZips maxB files).map (fun z => z.members), b ≠ []) ∧
    (∀ b ∈ (msZips maxB files).map (fun z => z.members),
      sizeSum b ≤ maxB ∨ ∃ f, b = [f] ∧ maxB < f.content.length) := by
  obtain ⟨hA, hB⟩ := msGo_members maxB files 0 msInit
    (by intro z hz; simp [msInit] at hz)
    (by intro h; simp [msInit] at h)
    (fun _ => rfl)
  refine ⟨?_, ?_, ?_⟩
  · rw [show msZips maxB files = msFinal (msGo maxB 0 msInit files) from rfl, hB]
    simp [msInit]
  · intro b hb
    rw [List.mem_map] at hb
    obtain ⟨z, hz, rfl⟩ := hb
    exact (hA z hz).1
  · intro b hb
    rw [List.mem_map] at hb
    obtain ⟨z, hz, rfl⟩ := hb
    exact (hA z hz).2

theorem c7_witness :
    0 < 10 ∧
      (((msZips 10 [(⟨"/a".toList, [0, 0, 0]⟩ : AFile),
          ⟨"/b".toList, [0, 0, 0, 0, 0, 0, 0, 0, 0, 0, 0, 0]⟩,
          ⟨"/c".toList, [0]⟩]).map (fun z => z.members)).flatten
        = [(⟨"/a".toList, [0, 0, 0]⟩ : AFile),
            ⟨"/b".toList, [0, 0, 0, 0, 0, 0, 0, 0, 0, 0, 0, 0]⟩,
            ⟨"/c".toList, [0]⟩] ∧
      (∀ b ∈ (msZips 10 [(⟨"/a".toList, [0, 0, 0]⟩ : AFile),
          ⟨"/b".toList, [0, 0, 0, 0, 0, 0, 0, 0, 0, 0, 0, 0]⟩,
          ⟨"/c".toList, [0]⟩]).map (fun z => z.members), b ≠ []) ∧
      (∀ b ∈ (msZips 10 [(⟨"/a".toList, [0, 0, 0]⟩ : AFile),
          ⟨"/b".toList, [0, 0, 0, 0, 0, 0, 0, 0, 0, 0, 0, 0]⟩,
          ⟨"/c".toList, [0]⟩]).map (fun z => z.members),
        sizeSum b ≤ 10 ∨ ∃ f, b = [f] ∧ 10 < f.content.length)) :=
  ⟨by decide,
   c7_max_size_partition 10
     [⟨"/a".toList, [0, 0, 0]⟩,
      ⟨"/b".toList, [0, 0, 0, 0, 0, 0, 0, 0, 0, 0, 0, 0]⟩,
      ⟨"/c".toList, [0]⟩] (by decide)⟩

theorem msStep_opened (maxB idx : Nat) (st : MSState) (f : AFile) :
    (msStep maxB idx st f).opened = true := by
  by_cases h : st.opened = false ∨ st.current + f.content.length > maxB
  · rw [msStep_rot maxB idx st f h]
  · rw [msStep_norot maxB idx st f h]
    rcases Bool.eq_false_or_eq_true st.opened with h1 | h1
    · exact h1
    · exact absurd (Or.inl h1) h

theorem msGo_opened (maxB : Nat) :
    ∀ (fs : List AFile) (idx : Nat) (st : MSState), st.opened = true →
      (msGo maxB idx st fs).opened = true := by
  intro fs
  induction fs with
  | nil => intro idx st h; exact h
  | cons f fs ih => intro idx st h; exact ih (idx + 1) _ (msStep_opened maxB idx st f)

/-- With pairwise-distinct base names no collision rename ever fires, so
the (single, never-reset) manifest accumulates exactly one
`basename → path` entry per member across all parts, in input order. -/
theorem msGo_manifest (maxB : Nat) :
    ∀ (fs : List AFile) (idx : Nat) (st : MSState),
      (fs.map (fun f => basenameOf f.path)).Nodup →
      (∀ f ∈ fs, basenameOf f.path ∉ st.seen) →
      (∀ f ∈ fs, dget st.manifest (basenameOf f.path) = none) →
      (msGo maxB idx st fs).manifest
        = st.manifest ++ fs.map (fun f => (basenameOf f.path, f.path)) := by
  intro fs
  induction fs with
  | nil => intro idx st _ _ _; simp [msGo]
  | cons f fs ih =>
    intro idx st hnd hseen hfresh
    have hnd2 : (basenameOf f.path :: fs.map (fun f => basenameOf f.path)).Nodup := by
      rw [List.map_cons] at hnd; exact hnd
    have hhead : basenameOf f.path ∉ fs.map (fun f => basenameOf f.path) :=
      (List.nodup_cons.mp hnd2).1
    have hne : ∀ g ∈ fs, basenameOf g.path ≠ basenameOf f.path := by
      intro g hg hc
      exact hhead (hc ▸ List.mem_map_of_mem _ hg)
    have hfreshf : dget st.manifest (basenameOf f.path) = none :=
      hfresh f (List.mem_cons_self _ _)
    show (msGo maxB (idx + 1) (msStep maxB idx st f) fs).manifest = _
    have hstepm : (msStep maxB idx st f).manifest
        = st.manifest ++ [(basenameOf f.path, f.path)] := by
      by_cases hrot : st.opened = false ∨ st.current + f.content.length > maxB
      · rw [msStep_rot maxB idx st f hrot]
        exact dinsert_fresh _ _ _ hfreshf
      · rw [msStep_norot maxB idx st f hrot]
        have hnm : basenameOf f.path ∉ st.seen := hseen f (List.mem_cons_self _ _)
        simp only [if_neg hnm]
        exact dinsert_fresh _ _ _ hfreshf
    have hsteps : ∀ g ∈ fs, basenameOf g.path ∉ (msStep maxB idx st f).seen := by
      intro g hg
      by_cases hrot : st.opened = false ∨ st.current + f.content.length > maxB
      · rw [msStep_rot maxB idx st f hrot]
        intro hc
        rw [List.mem_singleton] at hc
        exact hne g hg hc
      · rw [msStep_norot maxB idx st f hrot]
        have hnm : basenameOf f.path ∉ st.seen := hseen f (List.mem_cons_self _ _)
        simp only [if_neg hnm]
        intro hc
        rcases List.mem_cons.mp hc with hc1 | hc1
        · exact hne g hg hc1
        · exact hseen g (List.mem_cons_of_mem _ hg) hc1
    have hstepf : ∀ g ∈ fs, dget (msStep maxB idx st f).manifest (basenameOf g.path) = none := by
      intro g hg
      rw [hstepm, dget_append, hfresh g (List.mem_cons_of_mem _ hg)]
      simp [dget, Ne.symm (hne g hg)]
    rw [ih (idx + 1) (msStep maxB idx st f) (List.nodup_cons.mp hnd2).2 hsteps hstepf,
      hstepm]
    simp

/-- An entry name resolved by the collision rule is never `manifest.json`
as long as the base name is not: the rename starts with a digit while
`manifest.json` does not. -/
theorem arc_ne_mjN (idx : Nat) (name : List Char) (hname : name ≠ mjN)
    (seen : List (List Char)) :
    (if name ∈ seen then decRepr idx ++ '_' :: name else name) ≠ mjN := by
  by_cases h : name ∈ seen
  · simp only [if_pos h]
    intro hc
    have h1 : headOk (decRepr idx ++ '_' :: name) = false := rename_head_digit idx name
    rw [hc] at h1
    have h2 : headOk mjN = true := by decide
    rw [h1] at h2
    cases h2
  · simpa [h] using hname

/-- During the member loop no container entry is named `manifest.json`. -/
theorem msGo_no_mjN (maxB : Nat) :
    ∀ (fs : List AFile) (idx : Nat) (st : MSState),
      (∀ f ∈ fs, basenameOf f.path ≠ mjN) →
      (∀ z ∈ st.zips, ∀ e ∈ z.entries, e.1 ≠ mjN) →
      (∀ e ∈ st.cur.entries, e.1 ≠ mjN) →
      (∀ z ∈ (msGo maxB idx st fs).zips, ∀ e ∈ z.entries, e.1 ≠ mjN) ∧
      (∀ e ∈ (msGo maxB idx st fs).cur.entries, e.1 ≠ mjN) := by
  intro fs
  induction fs with
  | nil => intro idx st _ hz hc; exact ⟨hz, hc⟩
  | cons f fs ih =>
    intro idx st hb hz hc
    have hbf : basenameOf f.path ≠ mjN := hb f (List.mem_cons_self _ _)
    have hb' : ∀ g ∈ fs, basenameOf g.path ≠ mjN :=
      fun g hg => hb g (List.mem_cons_of_mem _ hg)
    show (∀ z ∈ (msGo maxB (idx + 1) (msStep maxB idx st f) fs).zips,
        ∀ e ∈ z.entries, e.1 ≠ mjN) ∧
      (∀ e ∈ (msGo maxB (idx + 1) (msStep maxB idx st f) fs).cur.entries, e.1 ≠ mjN)
    apply ih (idx + 1) (msStep maxB idx st f) hb'
    · by_cases hrot : st.opened = false ∨ st.current + f.content.length > maxB
      · rw [msStep_rot maxB idx st f hrot]
        cases hopn : st.opened with
        | false => simpa using hz
        | true =>
          simp only [if_true]
          intro z hzmem
          rcases List.mem_append.mp hzmem with hmem | hmem
          · exact hz z hmem
          · rw [List.mem_singleton] at hmem
            rw [hmem]
            exact hc
      · rw [msStep_norot maxB idx st f hrot]
        exact hz
    · by_cases hrot : st.opened = false ∨ st.current + f.content.length > maxB
      · rw [msStep_rot maxB idx st f hrot]
        intro e he
        rw [List.mem_singleton] at he
        rw [he]
        exact hbf
      · rw [msStep_norot maxB idx st f hrot]
        intro e he
        rcases List.mem_append.mp he with hmem | hmem
        · exact hc e hmem
        · rw [List.mem_singleton] at hmem
          rw [hmem]
          exact arc_ne_mjN idx (basenameOf f.path) hbf st.seen

/-- C4 counterexample: with a 10-byte limit and two 8-byte members the
By-Max-Size mode writes two containers; the *first* container holds no
`manifest.json` entry at all (its only entry is `x`), while the single
manifest — serialized only into the *last* container — also maps `x`, a
member stored in the first container.  This refutes both "stored inside
that same container unconditionally" and "no entries belonging to any
other bundle". -/
theorem c4_counterexample :
    ((msZips 10 [(⟨"/a/x".toList, [0, 0, 0, 0, 0, 0, 0, 0]⟩ : AFile),
        ⟨"/a/y".toList, [1, 1, 1, 1, 1, 1, 1, 1]⟩]).map
      (fun z => z.entries.map Prod.fst))
      = [["x".toList], ["y".toList, mjN]] ∧
    ((msZips 10 [(⟨"/a/x".toList, [0, 0, 0, 0, 0, 0, 0, 0]⟩ : AFile),
        ⟨"/a/y".toList, [1, 1, 1, 1, 1, 1, 1, 1]⟩]).map
      (fun z => z.members.map (fun f => f.path)))
      = [["/a/x".toList], ["/a/y".toList]] ∧
    (msRun 10 [(⟨"/a/x".toList, [0, 0, 0, 0, 0, 0, 0, 0]⟩ : AFile),
        ⟨"/a/y".toList, [1, 1, 1, 1, 1, 1, 1, 1]⟩]).manifest
      = [("x".toList, "/a/x".toList), ("y".toList, "/a/y".toList)] := by
  refine ⟨by decide, by decide, by decide⟩

/-- C4 amended: in By-Max-Size mode, when every member is successfully
written, one *combined* manifest is produced: with pairwise-distinct base
names none of which is `manifest.json`, it holds exactly one entry per
member across *all* containers (entry name → original absolute path), it
is serialized once as the final entry of the *last* container, and no
earlier container holds any `manifest.json` entry. -/
theorem c4_amended_manifest_in_last_container (maxB : Nat) (files : List AFile)
    (hne : files ≠ [])
    (hnd : (files.map (fun f => basenameOf f.path)).Nodup)
    (hmjn : ∀ f ∈ files, basenameOf f.path ≠ mjN) :
    msZips maxB files ≠ [] ∧
    (msRun maxB files).manifest = files.map (fun f => (basenameOf f.path, f.path)) ∧
    (∀ z ∈ (msZips maxB files).dropLast, ∀ e ∈ z.entries, e.1 ≠ mjN) ∧
    (∃ z, (msZips maxB files).getLast? = some z ∧
      z.entries.getLast? = some (mjN,
        encodeManifest (files.map (fun f => (basenameOf f.path, f.path)))) ∧
      (∀ e ∈ z.entries.dropLast, e.1 ≠ mjN)) := by
  have hmani : (msRun maxB files).manifest
      = files.map (fun f => (basenameOf f.path, f.path)) := by
    have := msGo_manifest maxB files 0 msInit hnd
      (by intro f _; simp [msInit])
      (by intro f _; rfl)
    simpa [msInit] using this
  have hopn : (msRun maxB files).opened = true := by
    match files, hne with
    | f :: fs, _ =>
      show (msGo maxB 1 (msStep maxB 0 msInit f) fs).opened = true
      exact msGo_opened maxB fs 1 _ (msStep_opened maxB 0 msInit f)
  obtain ⟨hzA, hzB⟩ := msGo_no_mjN maxB files 0 msInit hmjn
    (by intro z hz; simp [msInit] at hz)
    (by intro e he; simp [msInit] at he)
  have hfin : msZips maxB files
      = (msRun maxB files).zips
        ++ [⟨(msRun maxB files).cur.members,
             (msRun maxB files).cur.entries
               ++ [(mjN, encodeManifest ((msRun maxB files).manifest))]⟩] := by
    rw [msZips, msFinal, if_pos hopn]
  refine ⟨by rw [hfin]; simp, hmani, ?_, ?_⟩
  · rw [hfin]
    intro z hz
    rw [List.dropLast_concat] at hz
    exact hzA z hz
  · refine ⟨⟨(msRun maxB files).cur.members,
      (msRun maxB files).cur.entries
        ++ [(mjN, encodeManifest ((msRun maxB files).manifest))]⟩, ?_, ?_, ?_⟩
    · rw [hfin, List.getLast?_concat]
    · rw [List.getLast?_concat]
      rw [hmani]
    · rw [List.dropLast_concat]
      exact hzB

theorem c4_witness :
    ([(⟨"/a/x".toList, [7]⟩ : AFile), ⟨"/a/y".toList, [8, 9]⟩] ≠ ([] : List AFile)) ∧
    ([(⟨"/a/x".toList, [7]⟩ : AFile), ⟨"/a/y".toList, [8, 9]⟩].map
      (fun f => basenameOf f.path)).Nodup ∧
    (∀ f ∈ [(⟨"/a/x".toList, [7]⟩ : AFile), ⟨"/a/y".toList, [8, 9]⟩],
      basenameOf f.path ≠ mjN) ∧
    (msZips 10 [(⟨"/a/x".toList, [7]⟩ : AFile), ⟨"/a/y".toList, [8, 9]⟩] ≠ [] ∧
      (msRun 10 [(⟨"/a/x".toList, [7]⟩ : AFile), ⟨"/a/y".toList, [8, 9]⟩]).manifest
        = [(⟨"/a/x".toList, [7]⟩ : AFile), ⟨"/a/y".toList, [8, 9]⟩].map
            (fun f => (basenameOf f.path, f.path)) ∧
      (∀ z ∈ (msZips 10 [(⟨"/a/x".toList, [7]⟩ : AFile),
          ⟨"/a/y".toList, [8, 9]⟩]).dropLast, ∀ e ∈ z.entries, e.1 ≠ mjN) ∧
      (∃ z, (msZips 10 [(⟨"/a/x".toList, [7]⟩ : AFile),
            ⟨"/a/y".toList, [8, 9]⟩]).getLast? = some z ∧
        z.entries.getLast? = some (mjN,
          encodeManifest ([(⟨"/a/x".toList, [7]⟩ : AFile), ⟨"/a/y".toList, [8, 9]⟩].map
            (fun f => (basenameOf f.path, f.path)))) ∧
        (∀ e ∈ z.entries.dropLast, e.1 ≠ mjN))) :=
  ⟨by decide, by decide, by decide,
   c4_amended_manifest_in_last_container 10
     [⟨"/a/x".toList, [7]⟩, ⟨"/a/y".toList, [8, 9]⟩]
     (by decide) (by decide) (by decide)⟩
